import Mathlib

/-!
# Verification of the deepgo Go rules-and-record engine

Shallow embedding, in Lean 4, of the parts of the repository that the
specification makes claims about:

* `src/katagui-react/src/services/goLogic.ts` — board occupancy map,
  flood-fill group detection, liberty counting, capture resolution,
  suicide legality, `applyMove`;
* `src/katagui-react/dist-debug/services/api.js` (coordinate utilities) —
  `sgfToPoint` / `pointToSGF`;
* `src/unnamed/part_005` (SGF codec) — `moves2sgf` / `sgf2list`;
* `src/unnamed/part_007` (game store) — `calculateMoveBadness`, `addMove`
  over the `GameNode` tree of `src/katagui-react/src/types/GameNode.ts`.

Modelling conventions:

* TS `Map<string, StoneType>` boards keyed by the string `` `${row},${col}` ``
  are modelled as functions `Point → Option Stone` with `Point := ℕ × ℕ`;
  the key builder `pointToKey` is injective (decimal digits never contain
  the `,` separator), so the string-keyed map and the point-keyed map have
  identical behaviour.  `new Map(m)` copies are value copies, which is what
  a Lean function value already is.
* The BFS in `getGroup` is a `while` loop; it is embedded with an explicit
  fuel argument.  The fuel passed by `getGroup` is proved sufficient (inside
  `getGroupAux_correct`: every reachable queue entry lies in a finite box
  and each iteration strictly decreases a measure bounded by `bfsFuel`), so
  the fueled function agrees with the source loop, which always terminates.
* JS strings are modelled as `List Char`.
-/

set_option maxHeartbeats 1000000

namespace DeepGo

/-- `StoneType = 'black' | 'white' | 'none'` from `types/game.d.ts`. -/
inductive Stone where
  | black
  | white
  | none3
deriving DecidableEq, Repr

/-- `Point { row, col }`; rows and columns are the non-negative integers the
program actually uses (all callers pass indices in `[0, boardSize)`). -/
abbrev Point := Nat × Nat

/-- `BoardMap = Map<string, StoneType>`, keyed by `pointToKey`, modelled as a
function on points (the key builder is injective). -/
abbrev BoardMap := Point → Option Stone

/-- `board.set(key, s)` on a copy. -/
def boardSet (b : BoardMap) (p : Point) (s : Stone) : BoardMap :=
  fun q => if q = p then some s else b q

/-- `board.delete(key)` on a copy. -/
def boardDel (b : BoardMap) (p : Point) : BoardMap :=
  fun q => if q = p then none else b q

/-- `getAdjacentPoints` from `goLogic.ts` (the four guarded pushes, in source
order). -/
def getAdjacentPoints (p : Point) (boardSize : Nat) : List Point :=
  (if 0 < p.1 then [(p.1 - 1, p.2)] else []) ++
  (if p.1 < boardSize - 1 then [(p.1 + 1, p.2)] else []) ++
  (if 0 < p.2 then [(p.1, p.2 - 1)] else []) ++
  (if p.2 < boardSize - 1 then [(p.1, p.2 + 1)] else [])

/-- The BFS loop body of `getGroup`: queue (`shift` from the front, `push` at
the back), visited set, accumulated group, with explicit fuel.  Mirrors the
source: pop, skip if visited, mark visited, and when the popped point carries
`stoneType` record it and enqueue its unvisited same-colored neighbours. -/
def getGroupAux (board : BoardMap) (stoneType : Stone) (boardSize : Nat) :
    Nat → List Point → Finset Point → List Point → List Point
  | 0, _, _, group => group
  | _ + 1, [], _, group => group
  | fuel + 1, current :: queue, visited, group =>
    if current ∈ visited then
      getGroupAux board stoneType boardSize fuel queue visited group
    else
      let visited' := insert current visited
      if board current = some stoneType then
        let pushes := (getAdjacentPoints current boardSize).filter
          (fun a => decide (a ∉ visited' ∧ board a = some stoneType))
        getGroupAux board stoneType boardSize fuel (queue ++ pushes) visited'
          (group ++ [current])
      else
        getGroupAux board stoneType boardSize fuel queue visited' group

/-- Fuel sufficient for a BFS started at `p`: every point the loop can ever
enqueue lies in the box `[0, max p.1 (boardSize-1)] × [0, max p.2 (boardSize-1)]`,
and each iteration either pops a visited point or enlarges the visited set,
so `5 * |box| + 2` iterations always drain the queue. -/
def bfsFuel (p : Point) (boardSize : Nat) : Nat :=
  5 * ((max p.1 (boardSize - 1) + 1) * (max p.2 (boardSize - 1) + 1)) + 2

/-- `getGroup` from `goLogic.ts`. -/
def getGroup (board : BoardMap) (p : Point) (boardSize : Nat) : List Point :=
  match board p with
  | none => []
  | some stoneType => getGroupAux board stoneType boardSize (bfsFuel p boardSize) [p] ∅ []

/-- The liberty set accumulated by `countLiberties` (a `Set<string>` of empty
neighbours of the group). -/
def libertySet (board : BoardMap) (group : List Point) (boardSize : Nat) : Finset Point :=
  group.foldl
    (fun s p =>
      s ∪ ((getAdjacentPoints p boardSize).filter (fun a => decide (board a = none))).toFinset)
    ∅

/-- `countLiberties` from `goLogic.ts`. -/
def countLiberties (board : BoardMap) (group : List Point) (boardSize : Nat) : Nat :=
  (libertySet board group boardSize).card

/-- `currentPlayer === 'black' ? 'white' : 'black'`. -/
def opponentColor : Stone → Stone
  | Stone.black => Stone.white
  | _ => Stone.black

/-- Loop state of `findAndRemoveCaptures`: the working board copy, the
captured list, and the `checkedGroups` key set. -/
structure CapState where
  board : BoardMap
  captured : List Point
  checked : Finset Point

/-- One iteration of the `for (adj of adjacent)` loop in
`findAndRemoveCaptures`. -/
def famrcStep (opp : Stone) (boardSize : Nat) (st : CapState) (adj : Point) : CapState :=
  if st.board adj ≠ some opp then st
  else if adj ∈ st.checked then st
  else
    let opponentGroup := getGroup st.board adj boardSize
    let checked' := st.checked ∪ opponentGroup.toFinset
    if countLiberties st.board opponentGroup boardSize = 0 then
      { board := opponentGroup.foldl boardDel st.board
        captured := st.captured ++ opponentGroup
        checked := checked' }
    else
      { st with checked := checked' }

/-- `findAndRemoveCaptures` from `goLogic.ts` (the working copy
`new Map(board)` is the starting state). -/
def findAndRemoveCaptures (board : BoardMap) (lastMove : Point) (currentPlayer : Stone)
    (boardSize : Nat) : CapState :=
  (getAdjacentPoints lastMove boardSize).foldl
    (famrcStep (opponentColor currentPlayer) boardSize)
    { board := board, captured := [], checked := ∅ }

/-- `isSelfCapture` from `goLogic.ts`. -/
def isSelfCapture (board : BoardMap) (point : Point) (currentPlayer : Stone)
    (boardSize : Nat) : Bool :=
  let testBoard := boardSet board point currentPlayer
  let captured := (findAndRemoveCaptures testBoard point currentPlayer boardSize).captured
  if captured.length > 0 then
    false
  else
    let ourGroup := getGroup testBoard point boardSize
    decide (countLiberties testBoard ourGroup boardSize = 0)

/-- `applyMove` from `goLogic.ts`. -/
def applyMove (board : BoardMap) (point : Point) (currentPlayer : Stone)
    (boardSize : Nat) : Option (BoardMap × List Point) :=
  if board point ≠ none then
    none
  else if isSelfCapture board point currentPlayer boardSize then
    none
  else
    let newBoard := boardSet board point currentPlayer
    let st := findAndRemoveCaptures newBoard point currentPlayer boardSize
    some (st.board, st.captured)

/-! ## Basic lemmas about the rules engine -/

lemma boardDel_foldl (b : BoardMap) (l : List Point) (q : Point) :
    (l.foldl boardDel b) q = if q ∈ l then none else b q := by
  induction l generalizing b with
  | nil => simp
  | cons p t ih =>
    simp only [List.foldl_cons, ih, boardDel, List.mem_cons]
    by_cases hq : q = p <;> by_cases hm : q ∈ t <;> simp [hq, hm]

lemma getGroupAux_mem {b : BoardMap} {st : Stone} {n : Nat} :
    ∀ {fuel : Nat} {queue : List Point} {visited : Finset Point} {group : List Point}
      {q : Point}, q ∈ getGroupAux b st n fuel queue visited group →
      q ∈ group ∨ b q = some st := by
  intro fuel
  induction fuel with
  | zero => intro _ _ _ _ h; exact Or.inl (by simpa [getGroupAux] using h)
  | succ fuel ih =>
    intro queue visited group q h
    match queue with
    | [] => exact Or.inl (by simpa [getGroupAux] using h)
    | current :: queue =>
      rw [getGroupAux] at h
      by_cases hv : current ∈ visited
      · rw [if_pos hv] at h
        exact ih h
      · rw [if_neg hv] at h
        by_cases hc : b current = some st
        · rw [if_pos hc] at h
          rcases ih h with hg | hb
          · rcases List.mem_append.mp hg with hg' | hg'
            · exact Or.inl hg'
            · simp only [List.mem_singleton] at hg'
              exact Or.inr (hg' ▸ hc)
          · exact Or.inr hb
        · rw [if_neg hc] at h
          exact ih h

/-- Every point the flood fill reports carries the same stone as its start. -/
lemma getGroup_sound {b : BoardMap} {p : Point} {n : Nat} {q : Point}
    (h : q ∈ getGroup b p n) : b q = b p := by
  unfold getGroup at h
  match hp : b p with
  | none => rw [hp] at h; simp at h
  | some st =>
    rw [hp] at h
    rcases getGroupAux_mem h with hg | hb
    · simp at hg
    · rw [hb]

/-! ## Flood-fill correctness

`getGroup` is a BFS over the same-colored connectivity relation.  We prove
that, started on a stone, it returns exactly the connected component of that
stone (soundness and completeness), which is what lets us reason about
"adjacent opponent groups" in the suicide/capture claims. -/

/-- One step of same-colored connectivity. -/
def connStep (b : BoardMap) (st : Stone) (n : Nat) (x y : Point) : Prop :=
  y ∈ getAdjacentPoints x n ∧ b x = some st ∧ b y = some st

/-- Same-colored connectivity (reflexive-transitive closure of adjacency
between stones of color `st`). -/
def conn (b : BoardMap) (st : Stone) (n : Nat) : Point → Point → Prop :=
  Relation.ReflTransGen (connStep b st n)

/-- Bounding box of every point the BFS started at `p` can ever reach. -/
def boxFin (p : Point) (n : Nat) : Finset Point :=
  Finset.range (max p.1 (n - 1) + 1) ×ˢ Finset.range (max p.2 (n - 1) + 1)

lemma mem_boxFin {p : Point} {n : Nat} {q : Point} :
    q ∈ boxFin p n ↔ q.1 ≤ max p.1 (n - 1) ∧ q.2 ≤ max p.2 (n - 1) := by
  simp [boxFin, Nat.lt_succ_iff]

lemma boxFin_card (p : Point) (n : Nat) :
    (boxFin p n).card = (max p.1 (n - 1) + 1) * (max p.2 (n - 1) + 1) := by
  simp [boxFin]

lemma bfsFuel_eq (p : Point) (n : Nat) : bfsFuel p n = 5 * (boxFin p n).card + 2 := by
  rw [bfsFuel, boxFin_card]

lemma mem_getAdjacentPoints {q' q : Point} {n : Nat} :
    q' ∈ getAdjacentPoints q n ↔
      (0 < q.1 ∧ q' = (q.1 - 1, q.2)) ∨ (q.1 < n - 1 ∧ q' = (q.1 + 1, q.2)) ∨
      (0 < q.2 ∧ q' = (q.1, q.2 - 1)) ∨ (q.2 < n - 1 ∧ q' = (q.1, q.2 + 1)) := by
  unfold getAdjacentPoints
  split_ifs <;> simp_all [Prod.ext_iff] <;> omega

lemma getAdjacentPoints_length (q : Point) (n : Nat) :
    (getAdjacentPoints q n).length ≤ 4 := by
  unfold getAdjacentPoints
  split_ifs <;> simp

lemma adj_mem_boxFin {p₀ q q' : Point} {n : Nat}
    (h : q' ∈ getAdjacentPoints q n) (hq : q ∈ boxFin p₀ n) : q' ∈ boxFin p₀ n := by
  rw [mem_boxFin] at hq ⊢
  rcases mem_getAdjacentPoints.mp h with ⟨h1, rfl⟩ | ⟨h1, rfl⟩ | ⟨h1, rfl⟩ | ⟨h1, rfl⟩ <;>
    constructor <;> simp <;> omega

lemma adj_symm {x y : Point} {n : Nat}
    (hx : x.1 < n ∧ x.2 < n) (hy : y.1 < n ∧ y.2 < n)
    (h : y ∈ getAdjacentPoints x n) : x ∈ getAdjacentPoints y n := by
  rw [mem_getAdjacentPoints] at h ⊢
  rcases h with ⟨h1, rfl⟩ | ⟨h1, rfl⟩ | ⟨h1, rfl⟩ | ⟨h1, rfl⟩ <;>
    simp_all [Prod.ext_iff] <;> omega

/-- A board is well formed for size `n` when every stone is on the board. -/
def WFBoard (b : BoardMap) (n : Nat) : Prop :=
  ∀ q s, b q = some s → q.1 < n ∧ q.2 < n

lemma conn_symm {b : BoardMap} {st : Stone} {n : Nat} (wf : WFBoard b n)
    {x y : Point} (h : conn b st n x y) : conn b st n y x := by
  refine Relation.ReflTransGen.symmetric ?_ h
  intro u v huv
  exact ⟨adj_symm (wf u st huv.2.1) (wf v st huv.2.2) huv.1, huv.2.2, huv.2.1⟩

/-- Master invariant lemma for the BFS loop: given the loop invariants and
enough fuel, the result is sound (every reported point is an `st`-stone
connected to `p₀`) and complete (contains every point connected to `p₀`). -/
lemma getGroupAux_correct (b : BoardMap) (st : Stone) (n : Nat) (p₀ : Point) :
    ∀ (fuel : Nat) (queue : List Point) (visited : Finset Point) (group : List Point),
      (∀ x ∈ queue, b x = some st ∧ conn b st n p₀ x) →
      (∀ x ∈ group, b x = some st ∧ conn b st n p₀ x) →
      (∀ x ∈ visited, b x = some st →
        x ∈ group ∧ ∀ y ∈ getAdjacentPoints x n, b y = some st → y ∈ visited ∨ y ∈ queue) →
      (p₀ ∈ visited ∨ p₀ ∈ queue) →
      (∀ x ∈ queue, x ∈ boxFin p₀ n) →
      visited ⊆ boxFin p₀ n →
      queue.length + 5 * ((boxFin p₀ n).card - visited.card) < fuel →
      (∀ x ∈ getGroupAux b st n fuel queue visited group, b x = some st ∧ conn b st n p₀ x) ∧
      (b p₀ = some st → ∀ x, conn b st n p₀ x →
        x ∈ getGroupAux b st n fuel queue visited group) := by
  intro fuel
  induction fuel with
  | zero => intro queue visited group _ _ _ _ _ _ hfuel; omega
  | succ fuel ih =>
    intro queue visited group hQ hG hV hS hQB hVB hfuel
    match queue with
    | [] =>
      rw [getGroupAux]
      refine ⟨hG, ?_⟩
      intro hp₀ x hconn
      have hvis : ∀ y, conn b st n p₀ y → y ∈ visited ∧ b y = some st := by
        intro y hy
        induction hy with
        | refl =>
          rcases hS with h | h
          · exact ⟨h, hp₀⟩
          · simp at h
        | tail _ hstep ihy =>
          obtain ⟨hyv, _⟩ := ihy
          have := (hV _ hyv hstep.2.1).2 _ hstep.1 hstep.2.2
          rcases this with h | h
          · exact ⟨h, hstep.2.2⟩
          · simp at h
      obtain ⟨hxv, hxc⟩ := hvis x hconn
      exact (hV x hxv hxc).1
    | current :: rest =>
      rw [getGroupAux]
      by_cases hv : current ∈ visited
      · rw [if_pos hv]
        refine ih rest visited group (fun x hx => hQ x (List.mem_cons_of_mem _ hx)) hG
          ?_ ?_ (fun x hx => hQB x (List.mem_cons_of_mem _ hx)) hVB ?_
        · intro x hx hxc
          refine ⟨(hV x hx hxc).1, ?_⟩
          intro y hy hyc
          rcases (hV x hx hxc).2 y hy hyc with h | h
          · exact Or.inl h
          · rcases List.mem_cons.mp h with rfl | h'
            · exact Or.inl hv
            · exact Or.inr h'
        · rcases hS with h | h
          · exact Or.inl h
          · rcases List.mem_cons.mp h with rfl | h'
            · exact Or.inl hv
            · exact Or.inr h'
        · simp only [List.length_cons] at hfuel
          omega
      · rw [if_neg hv]
        have hcurB : current ∈ boxFin p₀ n := hQB current (List.mem_cons_self _ _)
        have hins : (insert current visited).card = visited.card + 1 :=
          Finset.card_insert_of_not_mem hv
        have hsub : insert current visited ⊆ boxFin p₀ n := by
          intro x hx
          rcases Finset.mem_insert.mp hx with rfl | hx'
          · exact hcurB
          · exact hVB hx'
        have hcard : visited.card + 1 ≤ (boxFin p₀ n).card := by
          calc visited.card + 1 = (insert current visited).card := hins.symm
            _ ≤ (boxFin p₀ n).card := Finset.card_le_card hsub
        by_cases hc : b current = some st
        · rw [if_pos hc]
          have hcur := hQ current (List.mem_cons_self _ _)
          refine ih _ _ _ ?_ ?_ ?_ ?_ ?_ hsub ?_
          · intro x hx
            rcases List.mem_append.mp hx with hx' | hx'
            · exact hQ x (List.mem_cons_of_mem _ hx')
            · have := List.mem_filter.mp hx'
              have hprop := of_decide_eq_true this.2
              exact ⟨hprop.2, hcur.2.tail ⟨this.1, hc, hprop.2⟩⟩
          · intro x hx
            rcases List.mem_append.mp hx with hx' | hx'
            · exact hG x hx'
            · simp only [List.mem_singleton] at hx'
              exact hx' ▸ ⟨hc, hcur.2⟩
          · intro x hx hxc
            rcases Finset.mem_insert.mp hx with rfl | hx'
            · refine ⟨List.mem_append.mpr (Or.inr (List.mem_singleton_self _)), ?_⟩
              intro y hy hyc
              by_cases hyv : y ∈ insert x visited
              · exact Or.inl hyv
              · refine Or.inr (List.mem_append.mpr (Or.inr ?_))
                exact List.mem_filter.mpr ⟨hy, decide_eq_true ⟨hyv, hyc⟩⟩
            · refine ⟨List.mem_append.mpr (Or.inl (hV x hx' hxc).1), ?_⟩
              intro y hy hyc
              rcases (hV x hx' hxc).2 y hy hyc with h | h
              · exact Or.inl (Finset.mem_insert_of_mem h)
              · rcases List.mem_cons.mp h with rfl | h'
                · exact Or.inl (Finset.mem_insert_self _ _)
                · exact Or.inr (List.mem_append.mpr (Or.inl h'))
          · rcases hS with h | h
            · exact Or.inl (Finset.mem_insert_of_mem h)
            · rcases List.mem_cons.mp h with rfl | h'
              · exact Or.inl (Finset.mem_insert_self _ _)
              · exact Or.inr (List.mem_append.mpr (Or.inl h'))
          · intro x hx
            rcases List.mem_append.mp hx with hx' | hx'
            · exact hQB x (List.mem_cons_of_mem _ hx')
            · exact adj_mem_boxFin (List.mem_filter.mp hx').1 hcurB
          · have hpl : ((getAdjacentPoints current n).filter
                (fun a => decide (a ∉ insert current visited ∧ b a = some st))).length ≤ 4 :=
              le_trans (List.length_filter_le _ _) (getAdjacentPoints_length current n)
            simp only [List.length_append, List.length_cons] at hfuel ⊢
            omega
        · rw [if_neg hc]
          refine ih rest (insert current visited) group
            (fun x hx => hQ x (List.mem_cons_of_mem _ hx)) hG ?_ ?_
            (fun x hx => hQB x (List.mem_cons_of_mem _ hx)) hsub ?_
          · intro x hx hxc
            rcases Finset.mem_insert.mp hx with rfl | hx'
            · exact absurd hxc hc
            · refine ⟨(hV x hx' hxc).1, ?_⟩
              intro y hy hyc
              rcases (hV x hx' hxc).2 y hy hyc with h | h
              · exact Or.inl (Finset.mem_insert_of_mem h)
              · rcases List.mem_cons.mp h with rfl | h'
                · exact Or.inl (Finset.mem_insert_self _ _)
                · exact Or.inr h'
          · rcases hS with h | h
            · exact Or.inl (Finset.mem_insert_of_mem h)
            · rcases List.mem_cons.mp h with rfl | h'
              · exact Or.inl (Finset.mem_insert_self _ _)
              · exact Or.inr h'
          · simp only [List.length_cons] at hfuel
            omega

/-- `getGroup` started on a stone returns exactly that stone's connected
same-colored component. -/
lemma getGroup_mem_iff {b : BoardMap} {p : Point} {n : Nat} {st : Stone}
    (hp : b p = some st) : ∀ x, x ∈ getGroup b p n ↔ conn b st n p x := by
  intro x
  have h := getGroupAux_correct b st n p (bfsFuel p n) [p] ∅ []
    (by rintro y hy; simp only [List.mem_singleton] at hy; subst hy
        exact ⟨hp, Relation.ReflTransGen.refl⟩)
    (by simp)
    (by simp)
    (Or.inr (List.mem_singleton_self _))
    (by rintro y hy; simp only [List.mem_singleton] at hy; subst hy
        exact mem_boxFin.mpr ⟨le_max_left _ _, le_max_left _ _⟩)
    (by simp)
    (by rw [bfsFuel_eq]; simp; omega)
  unfold getGroup
  rw [hp]
  exact ⟨fun hx => (h.1 x hx).2, fun hx => h.2 hp x hx⟩

/-- Starting the flood fill anywhere inside a component returns the same
set of points. -/
lemma getGroup_start_shift {b : BoardMap} {p x : Point} {n : Nat} {st : Stone}
    (wf : WFBoard b n) (hp : b p = some st) (hx : x ∈ getGroup b p n) :
    ∀ q, q ∈ getGroup b x n ↔ q ∈ getGroup b p n := by
  have hxst : b x = some st := by rw [getGroup_sound hx, hp]
  have hpx : conn b st n p x := (getGroup_mem_iff hp x).mp hx
  have hxp : conn b st n x p := conn_symm wf hpx
  intro q
  rw [getGroup_mem_iff hp q, getGroup_mem_iff hxst q]
  exact ⟨fun h => hpx.trans h, fun h => hxp.trans h⟩

lemma mem_libertySet {b : BoardMap} {g : List Point} {n : Nat} {x : Point} :
    x ∈ libertySet b g n ↔ ∃ q ∈ g, x ∈ getAdjacentPoints q n ∧ b x = none := by
  have aux : ∀ (l : List Point) (s : Finset Point),
      x ∈ l.foldl (fun s p =>
        s ∪ ((getAdjacentPoints p n).filter (fun a => decide (b a = none))).toFinset) s ↔
      x ∈ s ∨ ∃ q ∈ l, x ∈ getAdjacentPoints q n ∧ b x = none := by
    intro l
    induction l with
    | nil => simp
    | cons a t iht =>
      intro s
      simp only [List.foldl_cons, iht, Finset.mem_union, List.mem_toFinset,
        List.mem_filter, List.mem_cons]
      constructor
      · rintro ((h | ⟨h1, h2⟩) | ⟨q, hq, h3, h4⟩)
        · exact Or.inl h
        · exact Or.inr ⟨a, Or.inl rfl, h1, of_decide_eq_true h2⟩
        · exact Or.inr ⟨q, Or.inr hq, h3, h4⟩
      · rintro (h | ⟨q, hq | hq, h3, h4⟩)
        · exact Or.inl (Or.inl h)
        · subst hq; exact Or.inl (Or.inr ⟨h3, decide_eq_true h4⟩)
        · exact Or.inr ⟨q, hq, h3, h4⟩
  rw [libertySet, aux]
  simp

/-- Liberty counting only depends on the group as a set of points. -/
lemma countLiberties_congr {b : BoardMap} {g₁ g₂ : List Point} {n : Nat}
    (h : ∀ q, q ∈ g₁ ↔ q ∈ g₂) : countLiberties b g₁ n = countLiberties b g₂ n := by
  unfold countLiberties
  congr 1
  ext x
  simp only [mem_libertySet]
  constructor
  · rintro ⟨q, hq, h3⟩; exact ⟨q, (h q).mp hq, h3⟩
  · rintro ⟨q, hq, h3⟩; exact ⟨q, (h q).mpr hq, h3⟩

/-- Invariant of the capture loop: the working board is the placed board
minus the captured points, and every captured point carried the opponent
color on the placed board. -/
def CapInv (placed : BoardMap) (opp : Stone) (s : CapState) : Prop :=
  (∀ q, s.board q = if q ∈ s.captured then none else placed q) ∧
  (∀ q ∈ s.captured, placed q = some opp)

lemma famrcStep_inv {placed : BoardMap} {opp : Stone} {n : Nat} {s : CapState}
    (adj : Point) (h : CapInv placed opp s) : CapInv placed opp (famrcStep opp n s adj) := by
  obtain ⟨h1, h2⟩ := h
  unfold famrcStep
  by_cases ha : s.board adj ≠ some opp
  · rw [if_pos ha]; exact ⟨h1, h2⟩
  · rw [if_neg ha]
    push_neg at ha
    by_cases hch : adj ∈ s.checked
    · rw [if_pos hch]; exact ⟨h1, h2⟩
    · rw [if_neg hch]
      simp only
      have hgrp : ∀ q ∈ getGroup s.board adj n, s.board q = some opp := by
        intro q hq
        rw [getGroup_sound hq, ha]
      by_cases hlib : countLiberties s.board (getGroup s.board adj n) n = 0
      · rw [if_pos hlib]
        constructor
        · intro q
          simp only [boardDel_foldl, h1 q, List.mem_append]
          by_cases hg : q ∈ getGroup s.board adj n <;>
            by_cases hc : q ∈ s.captured <;> simp [hg, hc]
        · intro q hq
          rcases List.mem_append.mp hq with hc | hg
          · exact h2 q hc
          · have := hgrp q hg
            rw [h1 q] at this
            by_cases hc : q ∈ s.captured
            · simp [hc] at this
            · simpa [hc] using this
      · rw [if_neg hlib]
        exact ⟨h1, h2⟩

lemma famrc_inv (placed : BoardMap) (lastMove : Point) (currentPlayer : Stone) (n : Nat) :
    CapInv placed (opponentColor currentPlayer)
      (findAndRemoveCaptures placed lastMove currentPlayer n) := by
  unfold findAndRemoveCaptures
  have : ∀ (l : List Point) (s : CapState), CapInv placed (opponentColor currentPlayer) s →
      CapInv placed (opponentColor currentPlayer)
        (l.foldl (famrcStep (opponentColor currentPlayer) n) s) := by
    intro l
    induction l with
    | nil => intro s hs; exact hs
    | cons a t ih => intro s hs; exact ih _ (famrcStep_inv a hs)
  refine this _ _ ⟨fun q => by simp, fun q hq => by simp at hq⟩

lemma opponentColor_ne (c : Stone) : opponentColor c ≠ c := by
  cases c <;> simp [opponentColor]

/-- A corner position: a white stone at (0,0) in atari, black stones at
(1,0); black plays (0,1) and captures. -/
def bEx : BoardMap := fun q =>
  if q = (0, 0) then some Stone.white
  else if q = (1, 0) then some Stone.black
  else none

/-- The board `applyMove` produces in the example position. -/
def bEx' : BoardMap := boardDel (boardSet bEx (0, 1) Stone.black) (0, 0)

lemma famrcStep_captured_grow (opp : Stone) (n : Nat) (s : CapState) (a : Point) :
    ∃ t, (famrcStep opp n s a).captured = s.captured ++ t := by
  unfold famrcStep
  by_cases h1 : s.board a ≠ some opp
  · rw [if_pos h1]; exact ⟨[], (List.append_nil _).symm⟩
  · rw [if_neg h1]
    by_cases h2 : a ∈ s.checked
    · rw [if_pos h2]; exact ⟨[], (List.append_nil _).symm⟩
    · rw [if_neg h2]
      by_cases h3 : countLiberties s.board (getGroup s.board a n) n = 0
      · exact ⟨getGroup s.board a n, by simp only [if_pos h3]⟩
      · exact ⟨[], by simp only [if_neg h3, List.append_nil]⟩

lemma foldl_captured_ne_nil (opp : Stone) (n : Nat) :
    ∀ (l : List Point) (s : CapState), s.captured ≠ [] →
      ((l.foldl (famrcStep opp n) s).captured ≠ []) := by
  intro l
  induction l with
  | nil => intro s hs; exact hs
  | cons a t ih =>
    intro s hs
    rw [List.foldl_cons]
    apply ih
    obtain ⟨u, hu⟩ := famrcStep_captured_grow opp n s a
    rw [hu]
    simp [hs]

/-- If some adjacent point in the remaining worklist carries the opponent
color and heads a zero-liberty group, the capture loop ends with a nonempty
captured list.  The `checked` hypothesis records that every already-checked
stone belongs to a group with liberties (true initially, preserved by every
non-capturing iteration). -/
lemma famrc_fold_captures (placed : BoardMap) (opp : Stone) (n : Nat)
    (wf : WFBoard placed n) :
    ∀ (l : List Point) (s : CapState),
      s.captured = [] → s.board = placed →
      (∀ q ∈ s.checked, placed q = some opp →
        countLiberties placed (getGroup placed q n) n ≠ 0) →
      (∃ adj ∈ l, placed adj = some opp ∧
        countLiberties placed (getGroup placed adj n) n = 0) →
      (l.foldl (famrcStep opp n) s).captured ≠ [] := by
  intro l
  induction l with
  | nil => rintro s _ _ _ ⟨adj, h, _⟩; simp at h
  | cons a t ih =>
    intro s hcap hboard hchk hex
    rw [List.foldl_cons]
    by_cases hcol : placed a = some opp
    · by_cases hchk' : a ∈ s.checked
      · have hstep : famrcStep opp n s a = s := by
          unfold famrcStep
          rw [hboard, if_neg (not_not_intro hcol), if_pos hchk']
        rw [hstep]
        refine ih s hcap hboard hchk ?_
        rcases hex with ⟨adj, hmem, hc2, hl2⟩
        rcases List.mem_cons.mp hmem with rfl | hmem'
        · exact absurd hl2 (hchk adj hchk' hc2)
        · exact ⟨adj, hmem', hc2, hl2⟩
      · by_cases hlib : countLiberties placed (getGroup placed a n) n = 0
        · have hstep : (famrcStep opp n s a).captured =
              s.captured ++ getGroup placed a n := by
            unfold famrcStep
            rw [hboard, if_neg (not_not_intro hcol), if_neg hchk', if_pos hlib]
          apply foldl_captured_ne_nil
          rw [hstep, hcap, List.nil_append]
          have ha : a ∈ getGroup placed a n :=
            (getGroup_mem_iff hcol a).mpr Relation.ReflTransGen.refl
          intro hnil
          rw [hnil] at ha
          simp at ha
        · have hstep : famrcStep opp n s a =
              { s with checked := s.checked ∪ (getGroup placed a n).toFinset } := by
            unfold famrcStep
            rw [hboard, if_neg (not_not_intro hcol), if_neg hchk', if_neg hlib]
          rw [hstep]
          refine ih _ hcap hboard ?_ ?_
          · intro q hq hqcol
            rcases Finset.mem_union.mp hq with h | h
            · exact hchk q h hqcol
            · have hq' : q ∈ getGroup placed a n := List.mem_toFinset.mp h
              rw [countLiberties_congr (getGroup_start_shift wf hcol hq')]
              exact hlib
          · rcases hex with ⟨adj, hmem, hc2, hl2⟩
            rcases List.mem_cons.mp hmem with rfl | hmem'
            · exact absurd hl2 hlib
            · exact ⟨adj, hmem', hc2, hl2⟩
    · have hstep : famrcStep opp n s a = s := by
        unfold famrcStep
        rw [hboard, if_pos hcol]
      rw [hstep]
      refine ih s hcap hboard hchk ?_
      rcases hex with ⟨adj, hmem, hc2, hl2⟩
      rcases List.mem_cons.mp hmem with rfl | hmem'
      · exact absurd hc2 hcol
      · exact ⟨adj, hmem', hc2, hl2⟩

/-- claim C1: For every board, empty point, color and board size (with all
stones on the board), if placing the stone leaves at least one adjacent
opponent group with zero liberties, then `applyMove` does not return null:
the capture is resolved inside `isSelfCapture` before the mover's own group
is liberty-checked, so a capturing move is never rejected as suicide — no
assumption is made about the mover's own group, which may well have zero
liberties before the capture. -/
theorem applyMove_capture_not_null (b : BoardMap) (p : Point) (c : Stone) (n : Nat)
    (hempty : b p = none)
    (wf : WFBoard (boardSet b p c) n)
    (hcap : ∃ adj ∈ getAdjacentPoints p n,
      boardSet b p c adj = some (opponentColor c) ∧
      countLiberties (boardSet b p c) (getGroup (boardSet b p c) adj n) n = 0) :
    applyMove b p c n ≠ none := by
  have hcapne : (findAndRemoveCaptures (boardSet b p c) p c n).captured ≠ [] := by
    unfold findAndRemoveCaptures
    exact famrc_fold_captures (boardSet b p c) (opponentColor c) n wf
      (getAdjacentPoints p n) _ rfl rfl (by simp) hcap
  have hsc : isSelfCapture b p c n = false := by
    unfold isSelfCapture
    rw [if_pos (List.length_pos.mpr hcapne)]
  unfold applyMove
  rw [if_neg (not_not_intro hempty), if_neg (by simp [hsc])]
  simp

theorem applyMove_capture_not_null_witness :
    applyMove bEx (0, 1) Stone.black 19 ≠ none := by
  refine applyMove_capture_not_null bEx (0, 1) Stone.black 19 (by decide) ?_ ?_
  · intro q s hq
    simp only [boardSet, bEx] at hq
    split_ifs at hq with h1 h2 h3
    · subst h1; exact ⟨by norm_num, by norm_num⟩
    · subst h2; exact ⟨by norm_num, by norm_num⟩
    · subst h3; exact ⟨by norm_num, by norm_num⟩
  · exact ⟨(0, 0), by decide, by decide, by decide⟩

/-- claim C2: For every board, point, color and board size: if the point is already
occupied then `applyMove` returns null.  (In this embedding boards are
persistent values: every write in the source goes to a `new Map(...)` copy,
so the caller's map is unchanged by construction in every case, in
particular whenever `applyMove` returns null.) -/
theorem applyMove_occupied_null (b : BoardMap) (p : Point) (c : Stone) (n : Nat)
    (h : b p ≠ none) : applyMove b p c n = none := by
  unfold applyMove
  rw [if_pos h]

theorem applyMove_occupied_null_witness :
    (fun q : Point => if q = (3, 3) then some Stone.black else none) (3, 3) ≠ none ∧
      applyMove (fun q : Point => if q = (3, 3) then some Stone.black else none)
        (3, 3) Stone.white 19 = none := by
  refine ⟨by simp, applyMove_occupied_null _ _ _ _ (by simp)⟩

/-- claim C9: Whenever `applyMove` succeeds: the returned board holds the mover's color
at the played point; every captured point held an opponent-colored stone on
the board immediately after placement; and every captured point is absent
from the returned board. -/
theorem applyMove_some_spec (b : BoardMap) (p : Point) (c : Stone) (n : Nat)
    (b' : BoardMap) (cap : List Point)
    (h : applyMove b p c n = some (b', cap)) :
    b' p = some c ∧
    (∀ q ∈ cap, boardSet b p c q = some (opponentColor c)) ∧
    (∀ q ∈ cap, b' q = none) := by
  unfold applyMove at h
  by_cases hocc : b p ≠ none
  · rw [if_pos hocc] at h; exact absurd h (by simp)
  · rw [if_neg hocc] at h
    by_cases hsc : isSelfCapture b p c n
    · rw [if_pos hsc] at h; exact absurd h (by simp)
    · rw [if_neg hsc] at h
      simp only [Option.some.injEq, Prod.mk.injEq] at h
      obtain ⟨hb', hcap⟩ := h
      obtain ⟨h1, h2⟩ := famrc_inv (boardSet b p c) p c n
      subst hb' hcap
      refine ⟨?_, h2, fun q hq => by simp [h1 q, hq]⟩
      have hp : boardSet b p c p = some c := by simp [boardSet]
      rw [h1 p]
      have : p ∉ (findAndRemoveCaptures (boardSet b p c) p c n).captured := by
        intro hmem
        have := h2 p hmem
        rw [hp] at this
        injection this with h'
        exact opponentColor_ne c h'.symm
      simp [this, hp]

theorem applyMove_some_spec_witness :
    bEx' (0, 1) = some Stone.black ∧ bEx' (0, 0) = none := by
  have h : applyMove bEx (0, 1) Stone.black 19 = some (bEx', [(0, 0)]) := by rfl
  exact ⟨(applyMove_some_spec bEx (0, 1) Stone.black 19 bEx' [(0, 0)] h).1,
    (applyMove_some_spec bEx (0, 1) Stone.black 19 bEx' [(0, 0)] h).2.2 (0, 0) (by simp)⟩

/-! ## Game record tree: `GameNode` and the store's `addMove`

`GameNode` (`src/katagui-react/src/types/GameNode.ts`) owns a move, a list
of children and a `mainLineChildIndex` that the constructor sets to `0` and
that no code ever reassigns.  The store (`src/unnamed/part_007`) keeps a
`currentNode` cursor; we model the cursor as the list of child indices from
the root (a parent pointer is only used for navigation in the source, so the
path determines the node). -/

/-- A recorded move (`Move` of `types/game.d.ts`; the optional analysis
fields `p`/`score` are decimal numbers, modelled as rationals, and `comment`
is attached by the SGF layer). -/
structure Move where
  mv : List Char
  p : Option ℚ := none
  score : Option ℚ := none
  comment : Option (List Char) := none
deriving DecidableEq, Repr

inductive GameNode where
  | mk (move : Move) (children : List GameNode) (mainLineChildIndex : Nat)
deriving Repr

def GameNode.move : GameNode → Move
  | .mk m _ _ => m

@[simp] lemma GameNode.move_mk (m : Move) (c : List GameNode) (i : Nat) :
    (GameNode.mk m c i).move = m := rfl

def GameNode.children : GameNode → List GameNode
  | .mk _ c _ => c

@[simp] lemma GameNode.children_mk (m : Move) (c : List GameNode) (i : Nat) :
    (GameNode.mk m c i).children = c := rfl

def GameNode.mainLineChildIndex : GameNode → Nat
  | .mk _ _ i => i

@[simp] lemma GameNode.mainLineChildIndex_mk (m : Move) (c : List GameNode) (i : Nat) :
    (GameNode.mk m c i).mainLineChildIndex = i := rfl

/-- `new GameNode(move, parent)`: no children, `mainLineChildIndex = 0`. -/
def GameNode.new (m : Move) : GameNode := .mk m [] 0

/-- `addChild` from `GameNode.ts`: push a fresh node onto `children`
(`mainLineChildIndex` untouched). -/
def GameNode.addChild (n : GameNode) (m : Move) : GameNode :=
  .mk n.move (n.children ++ [GameNode.new m]) n.mainLineChildIndex

/-- The `mainLineChild` getter: `children[mainLineChildIndex]`. -/
def GameNode.mainLineChild (n : GameNode) : Option GameNode :=
  n.children[n.mainLineChildIndex]?

/-- Replace the `i`-th element of a list (identity when out of range). -/
def listModify : List GameNode → Nat → (GameNode → GameNode) → List GameNode
  | [], _, _ => []
  | a :: t, 0, f => f a :: t
  | a :: t, i + 1, f => a :: listModify t i f

/-- Node reached from `nd` by following a list of child indices. -/
def getAt : GameNode → List Nat → Option GameNode
  | nd, [] => some nd
  | nd, i :: is =>
    match nd.children[i]? with
    | none => none
    | some ch => getAt ch is

/-- Apply `f` to the node at the given path (in-place mutation of the node
object in the source). -/
def modifyAt : GameNode → List Nat → (GameNode → GameNode) → GameNode
  | nd, [], f => f nd
  | nd, i :: is, f =>
    .mk nd.move (listModify nd.children i (fun ch => modifyAt ch is f))
      nd.mainLineChildIndex

/-- The store's tree state: root plus the cursor path to `currentNode`. -/
structure GameTree where
  root : GameNode
  path : List Nat

/-- `addMove` from the store (`src/unnamed/part_007`): if `currentNode`
already has a child whose move text matches, navigate to it; otherwise
`addChild` a new node and navigate to it.  (The store also re-syncs a
redundant linear `moves` array and clears move marks; that bookkeeping does
not touch the tree and is outside the claims.) -/
def addMove (t : GameTree) (m : Move) : GameTree :=
  match getAt t.root t.path with
  | none => t
  | some cur =>
    match cur.children.findIdx? (fun ch => ch.move.mv == m.mv) with
    | some i => { root := t.root, path := t.path ++ [i] }
    | none =>
      { root := modifyAt t.root t.path (fun nd => nd.addChild m)
        path := t.path ++ [cur.children.length] }

lemma listModify_get {l : List GameNode} {i : Nat} {f : GameNode → GameNode}
    (h : i < l.length) : (listModify l i f)[i]? = (l[i]?).map f := by
  induction l generalizing i with
  | nil => simp at h
  | cons a t ih =>
    match i with
    | 0 => simp [listModify]
    | j + 1 =>
      simp only [listModify, List.getElem?_cons_succ]
      exact ih (by simpa using h)

lemma getAt_modifyAt {root cur : GameNode} {path : List Nat} {f : GameNode → GameNode}
    (h : getAt root path = some cur) :
    getAt (modifyAt root path f) path = some (f cur) := by
  induction path generalizing root with
  | nil =>
    simp only [getAt, Option.some.injEq] at h
    simp [getAt, modifyAt, h]
  | cons i is ih =>
    match root with
    | .mk mv cs idx =>
      simp only [getAt, GameNode.children] at h
      match hch : cs[i]? with
      | none => rw [hch] at h; exact absurd h (by simp)
      | some ch =>
        rw [hch] at h
        dsimp only at h
        have hlen : i < cs.length := by
          by_contra hcon
          rw [List.getElem?_eq_none (by omega)] at hch
          exact absurd hch (by simp)
        simp only [modifyAt, getAt, GameNode.children, GameNode.mainLineChildIndex]
        rw [listModify_get hlen, hch]
        exact ih h

/-- claim C7: `addMove` on a tree cursor: (1) if the current node has a child
whose move text matches, it descends into the (first) existing child and
creates no node — the tree is unchanged; (2) if no child matches and the
node already has children, it appends a new child, leaves
`mainLineChildIndex` unchanged (an in-range main-line child is preserved),
and descends to the appended child; (3) the first child added to a node
(constructor default index 0) becomes the node's main-line child. -/
theorem addMove_spec (t : GameTree) (m : Move) (cur : GameNode)
    (hcur : getAt t.root t.path = some cur) :
    (∀ i, cur.children.findIdx? (fun ch => ch.move.mv == m.mv) = some i →
      addMove t m = { root := t.root, path := t.path ++ [i] }) ∧
    (cur.children.findIdx? (fun ch => ch.move.mv == m.mv) = none →
      (addMove t m).path = t.path ++ [cur.children.length] ∧
      getAt (addMove t m).root t.path =
        some (.mk cur.move (cur.children ++ [GameNode.new m]) cur.mainLineChildIndex) ∧
      (cur.children ≠ [] → cur.mainLineChildIndex < cur.children.length →
        (GameNode.mk cur.move (cur.children ++ [GameNode.new m])
          cur.mainLineChildIndex).mainLineChild = cur.mainLineChild) ∧
      (cur.children = [] → cur.mainLineChildIndex = 0 →
        (GameNode.mk cur.move (cur.children ++ [GameNode.new m])
          cur.mainLineChildIndex).mainLineChild = some (GameNode.new m))) := by
  constructor
  · intro i hfind
    unfold addMove
    rw [hcur]
    dsimp only
    rw [hfind]
  · intro hfind
    unfold addMove
    rw [hcur]
    dsimp only
    rw [hfind]
    refine ⟨rfl, ?_, ?_, ?_⟩
    · have := getAt_modifyAt (f := fun nd => nd.addChild m) hcur
      simpa [GameNode.addChild] using this
    · intro _ hlt
      simp only [GameNode.mainLineChild, GameNode.children_mk,
        GameNode.mainLineChildIndex_mk]
      rw [List.getElem?_append, if_pos hlt]
    · intro hnil hidx
      simp [GameNode.mainLineChild, hnil, hidx]

/-- Concrete instance of `addMove_spec`: a root with one child `Q16`; adding
`D4` creates a second child, the main line still points at `Q16`, and adding
`Q16` again only navigates. -/
theorem addMove_spec_witness :
    (addMove ⟨GameNode.mk ⟨"root".data, none, none, none⟩ [GameNode.new ⟨"Q16".data, none, none, none⟩] 0, []⟩
        ⟨"D4".data, none, none, none⟩).path = [1] ∧
    getAt (addMove ⟨GameNode.mk ⟨"root".data, none, none, none⟩ [GameNode.new ⟨"Q16".data, none, none, none⟩] 0, []⟩
        ⟨"D4".data, none, none, none⟩).root [] =
      some (GameNode.mk ⟨"root".data, none, none, none⟩
        [GameNode.new ⟨"Q16".data, none, none, none⟩, GameNode.new ⟨"D4".data, none, none, none⟩] 0) ∧
    addMove ⟨GameNode.mk ⟨"root".data, none, none, none⟩ [GameNode.new ⟨"Q16".data, none, none, none⟩] 0, []⟩
        ⟨"Q16".data, none, none, none⟩ =
      ⟨GameNode.mk ⟨"root".data, none, none, none⟩ [GameNode.new ⟨"Q16".data, none, none, none⟩] 0, [0]⟩ := by
  have h := addMove_spec ⟨GameNode.mk ⟨"root".data, none, none, none⟩ [GameNode.new ⟨"Q16".data, none, none, none⟩] 0, []⟩
    ⟨"D4".data, none, none, none⟩ (GameNode.mk ⟨"root".data, none, none, none⟩ [GameNode.new ⟨"Q16".data, none, none, none⟩] 0) rfl
  have h2 := addMove_spec ⟨GameNode.mk ⟨"root".data, none, none, none⟩ [GameNode.new ⟨"Q16".data, none, none, none⟩] 0, []⟩
    ⟨"Q16".data, none, none, none⟩ (GameNode.mk ⟨"root".data, none, none, none⟩ [GameNode.new ⟨"Q16".data, none, none, none⟩] 0) rfl
  have hfind : (GameNode.mk ⟨"root".data, none, none, none⟩ [GameNode.new ⟨"Q16".data, none, none, none⟩] 0).children.findIdx?
      (fun ch => ch.move.mv == (⟨"D4".data, none, none, none⟩ : Move).mv) = none := by decide
  have hfind2 : (GameNode.mk ⟨"root".data, none, none, none⟩ [GameNode.new ⟨"Q16".data, none, none, none⟩] 0).children.findIdx?
      (fun ch => ch.move.mv == (⟨"Q16".data, none, none, none⟩ : Move).mv) = some 0 := by decide
  obtain ⟨hp, hg, -, -⟩ := h.2 hfind
  refine ⟨by simpa using hp, by simpa using hg, by simpa using h2.1 0 hfind2⟩

/-! ## Coordinate utilities (`dist-debug/services/api.js`)

`sgfToPoint` / `pointToSGF` convert between human move notation (letter from
an I-skipping alphabet plus a bottom-up row number, e.g. `Q16`) and
0-indexed board coordinates. -/

/-- `SGF_LETTERS = 'ABCDEFGHJKLMNOPQRST'` (skips I). -/
def SGF_LETTERS : List Char := "ABCDEFGHJKLMNOPQRST".data

def digitVal (c : Char) : Nat := c.toNat - '0'.toNat

def digitsToNat (ds : List Char) : Nat :=
  ds.foldl (fun a c => a * 10 + digitVal c) 0

/-- Maximal leading digit run; `none` when it is empty (`parseInt`'s NaN). -/
def parseNatPrefix (s : List Char) : Option Nat :=
  let ds := s.takeWhile Char.isDigit
  if ds.isEmpty then none else some (digitsToNat ds)

/-- `parseInt(s, 10)`: leading whitespace skipped, optional sign, then the
maximal digit prefix; NaN (`none`) when no digit follows. -/
def jsParseInt (s : List Char) : Option Int :=
  let s1 := s.dropWhile (fun c => c = ' ' ∨ c = '\t' ∨ c = '\n' ∨ c = '\r')
  match s1 with
  | '-' :: t => (parseNatPrefix t).map (fun k => -(k : Int))
  | '+' :: t => (parseNatPrefix t).map (fun k => (k : Int))
  | t => (parseNatPrefix t).map (fun k => (k : Int))

/-- `sgfToPoint` from `api.js`. -/
def sgfToPoint (sgfMove : List Char) (boardSize : Nat) : Option Point :=
  if sgfMove = [] ∨ sgfMove = "pass".data ∨ sgfMove = "resign".data then
    none
  else
    match sgfMove with
    | [] => none
    | c0 :: rest =>
      match SGF_LETTERS.findIdx? (fun c => c == c0.toUpper), jsParseInt rest with
      | some col, some k =>
        let row : Int := (boardSize : Int) - k
        if row < 0 ∨ (boardSize : Int) ≤ row ∨ boardSize ≤ col then none
        else some (row.toNat, col)
      | _, _ => none

/-- Digit-by-digit helper for decimal rendering (`fuel` bounds the number
of divisions; `n` itself always suffices). -/
def natDigitsAux : Nat → Nat → List Char
  | 0, _ => []
  | fuel + 1, n =>
    if n = 0 then []
    else natDigitsAux fuel (n / 10) ++ [Char.ofNat (48 + n % 10)]

/-- Decimal rendering of `${n}` in a template literal. -/
def natToDigits (n : Nat) : List Char :=
  if n = 0 then ['0'] else natDigitsAux n n

/-- `pointToSGF` from `api.js`.  (For an in-range column the letter lookup
always succeeds; the `'?'` default is unreachable for the board sizes the
program uses, where `boardSize ≤ 19`.) -/
def pointToSGF (point : Point) (boardSize : Nat) : List Char :=
  if boardSize ≤ point.1 ∨ boardSize ≤ point.2 then []
  else SGF_LETTERS.getD point.2 '?' :: natToDigits (boardSize - point.1)

/-- claim C5: On boards of size 9, 13 and 19, `pointToSGF` and `sgfToPoint`
are mutual inverses on in-range values: converting an in-range point to
human notation and parsing it back returns the point, and parsing any valid
in-range notation string (letter with index below the size, row number in
`[1, size]`) and converting back reproduces the string. -/
theorem sgfToPoint_pointToSGF_inverse (n : Nat) (hn : n = 9 ∨ n = 13 ∨ n = 19) :
    (∀ r : Nat, r < n → ∀ c : Nat, c < n →
      sgfToPoint (pointToSGF (r, c) n) n = some (r, c)) ∧
    (∀ col : Nat, col < n → ∀ row : Nat, row ≤ n → 1 ≤ row →
      pointToSGF ((sgfToPoint (SGF_LETTERS.getD col '?' :: natToDigits row) n).getD (0, 0))
          n =
        SGF_LETTERS.getD col '?' :: natToDigits row ∧
      sgfToPoint (SGF_LETTERS.getD col '?' :: natToDigits row) n = some (n - row, col)) := by
  rcases hn with rfl | rfl | rfl <;> exact ⟨by decide, by decide⟩

theorem sgfToPoint_pointToSGF_inverse_witness :
    sgfToPoint (pointToSGF (3, 15) 19) 19 = some (3, 15) ∧
    pointToSGF ((sgfToPoint "Q16".data 19).getD (0, 0)) 19 = "Q16".data := by
  have h := sgfToPoint_pointToSGF_inverse 19 (Or.inr (Or.inr rfl))
  refine ⟨h.1 3 (by norm_num) 15 (by norm_num), ?_⟩
  have h2 := (h.2 15 (by norm_num) 16 (by norm_num) (by norm_num)).1
  simpa using h2

/-! ## Move-quality metric (`calculateMoveBadness`, `src/unnamed/part_007`)

The store's move records hold `p`/`score` either as numbers or as the
decimal strings recovered from SGF (the code branches on `typeof`); we model
the union with `JVal`.  The numeric values flowing through this code are
decimal, modelled as rationals; the final score is computed in `ℝ` because
`logit` uses `Math.log`. -/

/-- A JS value that is either a number or a string (the two cases
`calculateMoveBadness` distinguishes with `typeof`). -/
inductive JVal where
  | num (q : ℚ)
  | str (s : List Char)
deriving DecidableEq, Repr

/-- A move record as the badness computation reads it (`mv`, optional
`p`/`score`; the other `Move` fields are not consulted). -/
structure StoreMove where
  mv : List Char
  p : Option JVal := none
  score : Option JVal := none
deriving DecidableEq, Repr

/-- JS falsiness of `current.p` (`!p`): absent, the number 0, or the empty
string. -/
def jfalsy : Option JVal → Bool
  | none => true
  | some (JVal.num q) => q = 0
  | some (JVal.str s) => s.isEmpty

/-- `Number(s)` on the decimal strings that reach this code: optional sign,
digits with an optional fraction part; `none` models NaN. -/
def parseUnsignedDec (s : List Char) : Option ℚ :=
  let intPart := s.takeWhile Char.isDigit
  let rest := s.dropWhile Char.isDigit
  match rest with
  | [] => if intPart.isEmpty then none else some (digitsToNat intPart : ℚ)
  | '.' :: frac =>
    if frac.all Char.isDigit && !(intPart.isEmpty && frac.isEmpty) then
      some ((digitsToNat intPart : ℚ) + (digitsToNat frac : ℚ) / (10 ^ frac.length))
    else none
  | _ => none

def jsNumber (s : List Char) : Option ℚ :=
  match s with
  | '-' :: t => (parseUnsignedDec t).map (fun q => -q)
  | '+' :: t => parseUnsignedDec t
  | t => parseUnsignedDec t

/-- `typeof v === 'string' ? Number(v) : v`, with the subsequent
`== null / isNaN` validation folded into the `Option`. -/
def toNumOpt : Option JVal → Option ℚ
  | none => none
  | some (JVal.num q) => some q
  | some (JVal.str s) => jsNumber s

/-- The clamped log-odds helper (`logit`) of `calculateMoveBadness`. -/
noncomputable def logit (p : ℝ) : ℝ :=
  Real.log (min 0.999999 (max 0.000001 p) / (1 - min 0.999999 (max 0.000001 p)))

/-- `calculateMoveBadness` from the store (`this.moves` and `this.handicap`
passed explicitly). -/
noncomputable def calculateMoveBadness (moves : List StoreMove) (handicap : Nat)
    (moveNumber : Nat) : Option ℝ :=
  if moveNumber ≤ 1 then none
  else
    match moves[moveNumber - 1]?, moves[moveNumber - 2]? with
    | some current, some previous =>
      if current.mv = "pass".data ∨ previous.mv = "pass".data then none
      else if current.p = some (JVal.str "0.00".data) ∨
          previous.p = some (JVal.str "0.00".data) ∨
          jfalsy current.p ∨ jfalsy previous.p then none
      else
        match toNumOpt current.p, toNumOpt previous.p,
            toNumOpt current.score, toNumOpt previous.score with
        | some pN, some ppN, some sN, some psN =>
          let moveIndex := moveNumber - 1
          let isWhite : Bool := if 2 ≤ handicap then !(moveIndex % 2 = 1) else moveIndex % 2 = 1
          let pN' : ℚ := if isWhite then 1 - pN else pN
          let ppN' : ℚ := if isWhite then 1 - ppN else ppN
          let sN' : ℚ := if isWhite then -sN else sN
          let psN' : ℚ := if isWhite then -psN else psN
          let PL : ℝ := max 0 ((psN' : ℝ) - (sN' : ℝ))
          let dL : ℝ := logit (pN' : ℝ) - logit (ppN' : ℝ)
          let LL : ℝ := max 0 (-dL)
          let EQP : ℝ := LL / 0.12
          some (PL + 1.0 * EQP)
        | _, _, _, _ => none
    | _, _ => none

/-- claim C6: Whenever the move-quality computation returns a numeric
badness (does not return null), that badness is non-negative; and when the
two consecutive plies carry equal win probability and equal expected score,
the badness is exactly 0. -/
theorem calculateMoveBadness_nonneg (moves : List StoreMove) (handicap : Nat)
    (moveNumber : Nat) (S : ℝ) (current previous : StoreMove)
    (hcur : moves[moveNumber - 1]? = some current)
    (hprev : moves[moveNumber - 2]? = some previous)
    (h : calculateMoveBadness moves handicap moveNumber = some S) :
    0 ≤ S ∧
    (toNumOpt current.p = toNumOpt previous.p →
      toNumOpt current.score = toNumOpt previous.score → S = 0) := by
  unfold calculateMoveBadness at h
  by_cases h1 : moveNumber ≤ 1
  · rw [if_pos h1] at h; exact absurd h (by simp)
  · rw [if_neg h1, hcur, hprev] at h
    dsimp only at h
    by_cases h2 : current.mv = "pass".data ∨ previous.mv = "pass".data
    · rw [if_pos h2] at h; exact absurd h (by simp)
    · rw [if_neg h2] at h
      by_cases h3 : current.p = some (JVal.str "0.00".data) ∨
          previous.p = some (JVal.str "0.00".data) ∨
          jfalsy current.p ∨ jfalsy previous.p
      · rw [if_pos h3] at h; exact absurd h (by simp)
      · rw [if_neg h3] at h
        match hp : toNumOpt current.p, hpp : toNumOpt previous.p,
            hs : toNumOpt current.score, hps : toNumOpt previous.score with
        | none, _, _, _ => rw [hp] at h; exact absurd h (by simp)
        | some pN, none, _, _ => rw [hp, hpp] at h; exact absurd h (by simp)
        | some pN, some ppN, none, _ => rw [hp, hpp, hs] at h; exact absurd h (by simp)
        | some pN, some ppN, some sN, none =>
          rw [hp, hpp, hs, hps] at h; exact absurd h (by simp)
        | some pN, some ppN, some sN, some psN =>
          rw [hp, hpp, hs, hps] at h
          dsimp only at h
          have hS : _ = S := Option.some.inj h
          constructor
          · rw [← hS]
            refine add_nonneg (le_max_left _ _) (mul_nonneg (by norm_num)
              (div_nonneg (le_max_left _ _) (by norm_num)))
          · intro heqp heqs
            have hpe : pN = ppN := by injection heqp
            have hse : sN = psN := by injection heqs
            rw [← hS, hpe, hse]
            simp

theorem calculateMoveBadness_nonneg_witness :
    calculateMoveBadness
        [⟨"D4".data, some (JVal.num (1/2)), some (JVal.num 3)⟩,
         ⟨"Q16".data, some (JVal.num (1/2)), some (JVal.num 3)⟩] 0 2 = some 0 := by
  match hval : calculateMoveBadness
      [⟨"D4".data, some (JVal.num (1/2)), some (JVal.num 3)⟩,
       ⟨"Q16".data, some (JVal.num (1/2)), some (JVal.num 3)⟩] 0 2 with
  | none =>
    exact absurd hval (by simp +decide [calculateMoveBadness, toNumOpt, jfalsy])
  | some S =>
    have hs := calculateMoveBadness_nonneg _ 0 2 S
      ⟨"Q16".data, some (JVal.num (1/2)), some (JVal.num 3)⟩
      ⟨"D4".data, some (JVal.num (1/2)), some (JVal.num 3)⟩
      (by rfl) (by rfl) hval
    rw [hs.2 rfl rfl]

/-! ## SGF codec (`src/unnamed/part_005`)

`moves2sgf` serializes a move path to SGF text; `sgf2list` parses SGF text
back with a small set of fixed regular expressions.  Each regex is embedded
as a deterministic scanner with the same semantics (leftmost match; the
character classes `[^\]]*`, `[^\s]+`, `[^\]]+` never cross their stop
characters, so the greedy regex semantics is deterministic here).  The
`AI_ANALYSIS` JSON payload is opaque text for the claims at hand: the
serializer takes it as an already-stringified optional field (present iff
the source condition `aiAnalysis && badMoves.length > 0` holds) and the
parsed structure is not modelled. -/

/-- `SGF_COORD_LETTERS = 'abcdefghijklmnopqrst'`. -/
def SGF_COORD_LETTERS : List Char := "abcdefghijklmnopqrst".data

/-- `HUMAN_COORD_LETTERS = 'ABCDEFGHJKLMNOPQRST'`. -/
def HUMAN_COORD_LETTERS : List Char := "ABCDEFGHJKLMNOPQRST".data

/-- `pointToSgfCoords` from `part_005`: human notation (e.g. `Q16`) to SGF
coordinates (e.g. `pd`).  Out-of-range input makes the source index the
letter strings out of bounds (`undefined`); the `'?'` fallbacks stand for
those unreachable-for-valid-input cases. -/
def pointToSgfCoords (move : List Char) : List Char :=
  if move = "pass".data ∨ move = "resign".data then []
  else
    match move with
    | [] => ['?', '?']
    | c0 :: rest =>
      match HUMAN_COORD_LETTERS.findIdx? (fun c => c == c0.toUpper), jsParseInt rest with
      | some col, some k =>
        [SGF_COORD_LETTERS.getD col '?', SGF_COORD_LETTERS.getD ((19 : Int) - k).toNat '?']
      | _, _ => ['?', '?']

/-- `sgfCoordsToPoint` from `part_005`. -/
def sgfCoordsToPoint (sgfCoords : List Char) : List Char :=
  if sgfCoords = "tt".data ∨ sgfCoords = [] then "pass".data
  else
    match sgfCoords with
    | c0 :: c1 :: _ =>
      match SGF_COORD_LETTERS.findIdx? (fun c => c == c0),
          SGF_COORD_LETTERS.findIdx? (fun c => c == c1) with
      | some col, some row =>
        HUMAN_COORD_LETTERS.getD col '?' :: natToDigits (19 - row)
      | _, _ => ['?']
    | _ => ['?']

/-- `(x).toFixed(1)`: round to one decimal (ties toward `+∞`, as the spec of
`toFixed` picks the larger candidate) and render with exactly one digit
after the point.  (`toFixed` of a tiny negative value renders `-0.0` in JS
where this model renders `0.0`; the claims never depend on that corner.) -/
def toFixed1 (q : ℚ) : List Char :=
  let n : Int := ⌊q * 10 + 1 / 2⌋
  if n < 0 then '-' :: (natToDigits (n.natAbs / 10) ++ '.' :: natToDigits (n.natAbs % 10))
  else natToDigits (n.toNat / 10) ++ '.' :: natToDigits (n.toNat % 10)

/-- JS string truthiness for an optional string field. -/
def jtruthy (o : Option (List Char)) : Bool :=
  match o with
  | some s => !s.isEmpty
  | none => false

/-- `o || d` for optional string metadata fields (empty string is falsy). -/
def jsOr (o : Option (List Char)) (d : List Char) : List Char :=
  match o with
  | some s => if s.isEmpty then d else s
  | none => d

/-- `comment.replace(/]/g, '\\]')`. -/
def escBracketClose : List Char → List Char
  | [] => []
  | c :: t => if c = ']' then '\\' :: ']' :: escBracketClose t else c :: escBracketClose t

/-- `json.replace(/]/g,'\\]').replace(/\[/g,'\\[')` for the AI-analysis
header comment. -/
def escTagText (s : List Char) : List Char :=
  (escBracketClose s).flatMap (fun c => if c = '[' then ['\\', '['] else [c])

/-- `SgfMetadata`; `aiAnalysis` is the already-stringified JSON payload,
present exactly when the source emits the `AI_ANALYSIS` header comment. -/
structure SgfMetadata where
  pb : Option (List Char) := none
  pw : Option (List Char) := none
  re : Option (List Char) := none
  km : Option (List Char) := none
  dt : Option (List Char) := none
  aiAnalysis : Option (List Char) := none

def flipColor (c : Char) : Char := if c = 'B' then 'W' else 'B'

/-- The move loop of `moves2sgf`: returns `(movestr, result)`; stops at the
first `resign`, emitting a result tag for the other color. -/
def movesLoop : List Move → Char → List Char × List Char
  | [], _ => ([], [])
  | m :: rest, color =>
    let othercol := flipColor color
    if m.mv = "resign".data then
      ([], "RE[".data ++ [othercol] ++ "+R]".data)
    else
      let tok := ';' :: color :: '[' :: (pointToSgfCoords m.mv ++ [']'])
      let tok2 :=
        if jtruthy m.comment then
          tok ++ "C[".data ++ escBracketClose (m.comment.getD []) ++ [']']
        else tok
      let tok3 :=
        if m.p.isSome && m.score.isSome && !jtruthy m.comment then
          tok2 ++ "C[P:".data ++ toFixed1 (m.p.getD 0 * 100) ++ [' '] ++
            "S:".data ++ toFixed1 (m.score.getD 0) ++ [']']
        else tok2
      let pr := movesLoop rest othercol
      (tok3 ++ pr.1, pr.2)

/-- The header part of `moves2sgf` (format/size tags, source, players,
result, komi, date, optional AI-analysis comment).  `today` is the
environment's current date (`new Date().toISOString().slice(0, 10)`), used
when `metadata.dt` is absent. -/
def sgfHeader (metadata : SgfMetadata) (today : List Char) : List Char :=
  "(;FF[4]SZ[19]\n".data ++ "SO[katagui.baduk.club]\n".data ++
  "PB[".data ++ jsOr metadata.pb "Black".data ++ "]\n".data ++
  "PW[".data ++ jsOr metadata.pw "White".data ++ "]\n".data ++
  "RE[".data ++ jsOr metadata.re [] ++ "]\n".data ++
  "KM[".data ++ jsOr metadata.km "7.5".data ++ "]\n".data ++
  "DT[".data ++ jsOr metadata.dt today ++ "]\n".data ++
  (match metadata.aiAnalysis with
   | some json => "C[AI_ANALYSIS:".data ++ escTagText json ++ "]\n".data
   | none => [])

/-- `moves2sgf` from `part_005`. -/
def moves2sgf (moves : List Move) (metadata : SgfMetadata) (today : List Char) :
    List Char :=
  let pr := movesLoop moves 'B'
  sgfHeader metadata today ++ pr.2 ++ pr.1 ++ ")".data

/-- `[^\]]*\]`: capture up to the first `]`; fails when there is none. -/
def takeToRBracket : List Char → Option (List Char)
  | [] => none
  | c :: t => if c = ']' then some [] else (takeToRBracket t).map (c :: ·)

/-- Leftmost occurrence of `pat` followed by a `]`-terminated capture; the
embedding of the regexes `TAG\[([^\]]*)\]`, `;B\[([^\]]*)\]`,
`C\[([^\]]*)\]`. -/
def findCapture (pat : List Char) : List Char → Option (List Char)
  | [] => none
  | c :: t =>
    if pat.isPrefixOf (c :: t) then takeToRBracket ((c :: t).drop pat.length)
    else findCapture pat t

/-- `getSgfTag` from `part_005`. -/
def getSgfTag (sgf : List Char) (tag : List Char) : List Char :=
  (findCapture (tag ++ "[".data) sgf).getD []

/-- `parseMove` from `part_005`. -/
def parseMove (node : List Char) : Option Char × List Char :=
  match findCapture ";B[".data node with
  | some c => (some 'B', c)
  | none =>
    match findCapture ";W[".data node with
    | some c => (some 'W', c)
    | none => (none, [])

/-- Stages of one attempt of `C\[P:([^\s]+)\s+S:([^\]]+)\]` anchored at the
current position (the greedy character classes make the regex deterministic:
each class cannot cross its stop character, so no backtracking succeeds
where the staged scan fails).  `psAtG2` handles `([^\]]+)\]`, `psAtS` the
literal `S:`, `psAtWs` the `\s+`, `psAtRest` the `([^\s]+)` capture. -/
def psAtG2 (g1 r4 : List Char) : Option (List Char × List Char) :=
  if (r4.takeWhile (fun c => c ≠ ']')).isEmpty then none
  else if (r4.drop (r4.takeWhile (fun c => c ≠ ']')).length).head? = some ']' then
    some (g1, r4.takeWhile (fun c => c ≠ ']'))
  else none

def psAtS (g1 r3 : List Char) : Option (List Char × List Char) :=
  if "S:".data.isPrefixOf r3 then psAtG2 g1 (r3.drop 2) else none

def psAtWs (g1 r2 : List Char) : Option (List Char × List Char) :=
  if (r2.takeWhile Char.isWhitespace).isEmpty then none
  else psAtS g1 (r2.drop (r2.takeWhile Char.isWhitespace).length)

def psAtRest (rest : List Char) : Option (List Char × List Char) :=
  if (rest.takeWhile (fun c => !c.isWhitespace)).isEmpty then none
  else psAtWs (rest.takeWhile (fun c => !c.isWhitespace))
    (rest.drop (rest.takeWhile (fun c => !c.isWhitespace)).length)

def psAt (l : List Char) : Option (List Char × List Char) :=
  if "C[P:".data.isPrefixOf l then psAtRest (l.drop 4) else none

def findPS : List Char → Option (List Char × List Char)
  | [] => none
  | c :: t =>
    match psAt (c :: t) with
    | some r => some r
    | none => findPS t

/-- `parseProbScoreComment` from `part_005`. -/
def parseProbScoreComment (node : List Char) : List Char × List Char :=
  (findPS node).getD ("0.00".data, "0.00".data)

/-- `comment.replace(/\\\]/g, ']')`. -/
def unescBracketClose : List Char → List Char
  | '\\' :: ']' :: t => ']' :: unescBracketClose t
  | c :: t => c :: unescBracketClose t
  | [] => []

/-- `parseGeneralComment` from `part_005`. -/
def parseGeneralComment (node : List Char) : List Char :=
  match findCapture "C[".data node with
  | some c =>
    if "P:".data.isPrefixOf c ∨ "AI_ANALYSIS:".data.isPrefixOf c then []
    else unescBracketClose c
  | none => []

/-- `[^\]]*` split at the first `]`. -/
def splitRBracket : List Char → Option (List Char × List Char)
  | [] => none
  | c :: t =>
    if c = ']' then some ([], t)
    else (splitRBracket t).map (fun p => (c :: p.1, p.2))

/-- One attempt of the node pattern `;[BW]\[[^\]]*\](?:C\[[^\]]*\])?`
anchored at the current position; returns the matched token and the rest of
the input. -/
def matchNode (l : List Char) : Option (List Char × List Char) :=
  match l with
  | c0 :: c1 :: c2 :: rest =>
    if c0 = ';' ∧ (c1 = 'B' ∨ c1 = 'W') ∧ c2 = '[' then
      match splitRBracket rest with
      | none => none
      | some (coords, rest2) =>
        let tok := ';' :: c1 :: '[' :: (coords ++ [']'])
        if "C[".data.isPrefixOf rest2 then
          match splitRBracket (rest2.drop 2) with
          | none => some (tok, rest2)
          | some (cmt, rest4) => some (tok ++ 'C' :: '[' :: (cmt ++ [']']), rest4)
        else some (tok, rest2)
    else none
  | _ => none

lemma splitRBracket_some {l a b : List Char} (h : splitRBracket l = some (a, b)) :
    l = a ++ ']' :: b ∧ ']' ∉ a := by
  induction l generalizing a with
  | nil => simp [splitRBracket] at h
  | cons c t ih =>
    rw [splitRBracket] at h
    by_cases hc : c = ']'
    · rw [if_pos hc] at h
      simp only [Option.some.injEq, Prod.mk.injEq] at h
      obtain ⟨rfl, rfl⟩ := h
      simp [hc]
    · rw [if_neg hc] at h
      match ht : splitRBracket t with
      | none => rw [ht] at h; simp at h
      | some (a', b') =>
        rw [ht] at h
        simp only [Option.map, Option.some.injEq, Prod.mk.injEq] at h
        obtain ⟨rfl, rfl⟩ := h
        obtain ⟨rfl, hna⟩ := ih ht
        exact ⟨rfl, by simp [hna, Ne.symm hc, hc]⟩

lemma splitRBracket_append {a b : List Char} (h : ']' ∉ a) :
    splitRBracket (a ++ ']' :: b) = some (a, b) := by
  induction a with
  | nil => rw [List.nil_append, splitRBracket, if_pos rfl]
  | cons c t ih =>
    simp only [List.mem_cons, not_or] at h
    rw [List.cons_append, splitRBracket, if_neg (Ne.symm h.1), ih h.2]
    rfl

lemma matchNode_rest_lt {l tok rest : List Char} (h : matchNode l = some (tok, rest)) :
    rest.length < l.length := by
  unfold matchNode at h
  match l with
  | [] => simp at h
  | [c0] => simp at h
  | [c0, c1] => simp at h
  | c0 :: c1 :: c2 :: r =>
    dsimp only at h
    by_cases hc : c0 = ';' ∧ (c1 = 'B' ∨ c1 = 'W') ∧ c2 = '['
    · rw [if_pos hc] at h
      match hs : splitRBracket r with
      | none => rw [hs] at h; simp at h
      | some (coords, rest2) =>
        rw [hs] at h
        obtain ⟨hr, -⟩ := splitRBracket_some hs
        subst hr
        dsimp only at h
        by_cases hp : "C[".data.isPrefixOf rest2
        · rw [if_pos hp] at h
          obtain ⟨t, ht⟩ := List.isPrefixOf_iff_prefix.mp hp
          match hs2 : splitRBracket (rest2.drop 2) with
          | none =>
            rw [hs2] at h
            simp only [Option.some.injEq, Prod.mk.injEq] at h
            obtain ⟨-, rfl⟩ := h
            simp
            omega
          | some (cmt, rest4) =>
            rw [hs2] at h
            simp only [Option.some.injEq, Prod.mk.injEq] at h
            obtain ⟨-, rfl⟩ := h
            obtain ⟨hr2, -⟩ := splitRBracket_some hs2
            have hlt : rest2.drop 2 = cmt ++ ']' :: rest4 := hr2
            have h1 : rest4.length < (rest2.drop 2).length := by
              rw [hlt]; simp; omega
            have h2 : (rest2.drop 2).length ≤ rest2.length := by
              simp
            simp only [List.length_cons, List.length_append]
            omega
        · rw [if_neg hp] at h
          simp only [Option.some.injEq, Prod.mk.injEq] at h
          obtain ⟨-, rfl⟩ := h
          simp only [List.length_cons, List.length_append]
          omega
    · rw [if_neg hc] at h; simp at h

/-- The global scan `sgf.match(nodePattern)`, with a structural bound: walk
left to right, at each position try the node pattern; on success continue
after the match, otherwise advance one character.  Each step consumes at
least one character, so `cs.length` steps always suffice
(`scanNodesAux_congr` below shows the bound is irrelevant once large
enough). -/
def scanNodesAux : Nat → List Char → List (List Char)
  | 0, _ => []
  | fuel + 1, l =>
    match l with
    | [] => []
    | c :: t =>
      match matchNode (c :: t) with
      | some (tok, rest) => tok :: scanNodesAux fuel rest
      | none => scanNodesAux fuel t

def scanNodes (cs : List Char) : List (List Char) := scanNodesAux cs.length cs

lemma scanNodesAux_congr :
    ∀ (fuel : Nat), ∀ (cs : List Char), cs.length ≤ fuel →
      scanNodesAux fuel cs = scanNodes cs := by
  intro fuel
  induction fuel using Nat.strong_induction_on with
  | _ fuel ih =>
    intro cs hlen
    match fuel, cs with
    | 0, [] => rfl
    | f + 1, [] => rfl
    | f + 1, c :: t =>
      simp only [List.length_cons] at hlen
      rw [scanNodes]
      simp only [List.length_cons]
      rw [scanNodesAux, scanNodesAux]
      match hm : matchNode (c :: t) with
      | some (tok, rest) =>
        have hr := matchNode_rest_lt hm
        simp only [List.length_cons] at hr
        dsimp only
        rw [ih f (by omega) rest (by omega),
          ih t.length (by omega) rest (by omega)]
      | none =>
        dsimp only
        rw [ih f (by omega) t (by omega), ih t.length (by omega) t le_rfl]

lemma scanNodes_cons_none {c : Char} {t : List Char} (h : matchNode (c :: t) = none) :
    scanNodes (c :: t) = scanNodes t := by
  rw [scanNodes]
  simp only [List.length_cons]
  rw [scanNodesAux, h]
  exact scanNodesAux_congr t.length t le_rfl

lemma scanNodes_cons_some {c : Char} {t tok rest : List Char}
    (h : matchNode (c :: t) = some (tok, rest)) :
    scanNodes (c :: t) = tok :: scanNodes rest := by
  rw [scanNodes]
  simp only [List.length_cons]
  rw [scanNodesAux, h]
  have hr := matchNode_rest_lt h
  simp only [List.length_cons] at hr
  dsimp only
  rw [scanNodesAux_congr t.length rest (by omega)]

/-- The four per-move output arrays accumulated by the `sgf2list` loop. -/
structure SgfAcc where
  moves : List (List Char)
  probs : List (List Char)
  scores : List (List Char)
  comments : List (List Char)
deriving Repr

/-- One iteration of the node loop in `sgf2list`: on a move token, insert a
synthetic pass when the color breaks strict alternation, then push the move
with its recovered probability/score/comment. -/
def sgfStep (st : SgfAcc) (node : List Char) : SgfAcc :=
  match parseMove node with
  | (some color, sgfCoords) =>
    let expectedColor := if st.moves.length % 2 = 0 then 'B' else 'W'
    let st1 :=
      if color ≠ expectedColor then
        { moves := st.moves ++ ["pass".data], probs := st.probs ++ ["0.00".data],
          scores := st.scores ++ ["0.00".data], comments := st.comments ++ [[]] }
      else st
    let mv := sgfCoordsToPoint sgfCoords
    let ps := parseProbScoreComment node
    let comment := parseGeneralComment node
    { moves := st1.moves ++ [mv], probs := st1.probs ++ [ps.1],
      scores := st1.scores ++ [ps.2], comments := st1.comments ++ [comment] }
  | (none, _) => st

/-- The record `sgf2list` returns (the parsed `aiAnalysis` JSON payload is
not modelled; no claim concerns it). -/
structure ParsedSgf where
  moves : List (List Char)
  probs : List (List Char)
  scores : List (List Char)
  comments : List (List Char)
  pb : List Char
  pw : List Char
  winner : List Char
  komi : ℚ
  re : List Char
  dt : List Char

/-- `parseFloat`: maximal leading decimal prefix after optional whitespace
and sign; `none` models NaN. -/
def parseFloatPrefix (s : List Char) : Option ℚ :=
  let intPart := s.takeWhile Char.isDigit
  let rest := s.dropWhile Char.isDigit
  match rest with
  | '.' :: frac0 =>
    let frac := frac0.takeWhile Char.isDigit
    if intPart.isEmpty && frac.isEmpty then none
    else some ((digitsToNat intPart : ℚ) + (digitsToNat frac : ℚ) / 10 ^ frac.length)
  | _ => if intPart.isEmpty then none else some (digitsToNat intPart : ℚ)

def jsParseFloat (s : List Char) : Option ℚ :=
  match s.dropWhile (fun c => c = ' ' ∨ c = '\t' ∨ c = '\n' ∨ c = '\r') with
  | '-' :: t => (parseFloatPrefix t).map (fun q => -q)
  | '+' :: t => parseFloatPrefix t
  | t => parseFloatPrefix t

/-- `sgf2list` from `part_005`. -/
def sgf2list (sgf : List Char) : ParsedSgf :=
  let re := getSgfTag sgf "RE".data
  let dt := getSgfTag sgf "DT".data
  let pb := getSgfTag sgf "PB".data
  let pw := getSgfTag sgf "PW".data
  let komi : ℚ :=
    match jsParseFloat (getSgfTag sgf "KM".data) with
    | some q => if q = 0 then 7.5 else q
    | none => 7.5
  let winner : List Char :=
    if re.head?.map Char.toLower = some 'w' then "w".data
    else if re.head?.map Char.toLower = some 'b' then "b".data
    else []
  let acc := (scanNodes sgf).foldl sgfStep ⟨[], [], [], []⟩
  { moves := acc.moves, probs := acc.probs, scores := acc.scores,
    comments := acc.comments, pb := pb, pw := pw, winner := winner,
    komi := komi, re := re, dt := dt }

/-- claim C10: For every input string, the four arrays returned by
`sgf2list` have equal length: each retained token contributes one entry to
each array and each synthesized pass likewise contributes one entry to each
array. -/
theorem sgf2list_lengths (sgf : List Char) :
    (sgf2list sgf).probs.length = (sgf2list sgf).moves.length ∧
    (sgf2list sgf).scores.length = (sgf2list sgf).moves.length ∧
    (sgf2list sgf).comments.length = (sgf2list sgf).moves.length := by
  have main : ∀ (nodes : List (List Char)) (st : SgfAcc),
      st.probs.length = st.moves.length →
      st.scores.length = st.moves.length →
      st.comments.length = st.moves.length →
      ((nodes.foldl sgfStep st).probs.length = (nodes.foldl sgfStep st).moves.length ∧
       (nodes.foldl sgfStep st).scores.length = (nodes.foldl sgfStep st).moves.length ∧
       (nodes.foldl sgfStep st).comments.length = (nodes.foldl sgfStep st).moves.length) := by
    intro nodes
    induction nodes with
    | nil => intro st h1 h2 h3; exact ⟨h1, h2, h3⟩
    | cons nd rest ih =>
      intro st h1 h2 h3
      rw [List.foldl_cons]
      refine ih _ ?_ ?_ ?_ <;>
        · unfold sgfStep
          match parseMove nd with
          | (some color, cs) =>
            dsimp only
            split_ifs <;> simp [h1, h2, h3]
          | (none, cs) => simpa using by omega
  exact main (scanNodes sgf) ⟨[], [], [], []⟩ rfl rfl rfl

lemma parseMove_colors {node : List Char} {c : Char} {cs : List Char}
    (h : parseMove node = (some c, cs)) : c = 'B' ∨ c = 'W' := by
  unfold parseMove at h
  match h1 : findCapture ";B[".data node with
  | some cap =>
    rw [h1] at h
    injection h with h2 h2'
    injection h2 with h3
    exact Or.inl h3.symm
  | none =>
    rw [h1] at h
    match h2 : findCapture ";W[".data node with
    | some cap =>
      rw [h2] at h
      injection h with h3 h3'
      injection h3 with h4
      exact Or.inr h4.symm
    | none =>
      rw [h2] at h
      dsimp only at h
      injection h with h3 h3'
      exact absurd h3 (by simp)

lemma sgfStep_moves_grow (st : SgfAcc) (nd : List Char) :
    st.moves <+: (sgfStep st nd).moves := by
  unfold sgfStep
  match parseMove nd with
  | (some color, cs) =>
    dsimp only
    split_ifs <;>
      first
        | exact (List.prefix_append _ _).trans (List.prefix_append _ _)
        | exact List.prefix_append _ _
  | (none, cs) => exact List.prefix_rfl

lemma foldl_sgfStep_moves_grow (nodes : List (List Char)) (st : SgfAcc) :
    st.moves <+: (nodes.foldl sgfStep st).moves := by
  induction nodes generalizing st with
  | nil => exact List.prefix_rfl
  | cons nd rest ih =>
    rw [List.foldl_cons]
    exact (sgfStep_moves_grow st nd).trans (ih (sgfStep st nd))

/-- claim C4: Whenever the `sgf2list` node loop encounters a move token
whose color does not match strict alternation by output-index parity (`B` at
even, `W` at odd), it pushes a synthetic `pass` with probability `0.00`,
score `0.00` and empty comment immediately before the token's move; a
matching token is pushed directly; in both cases the index at which the
token's own move lands has parity matching the token's color, and the
already-accumulated entries persist as a prefix of the returned move
list. -/
theorem sgf2list_parity (sgf : List Char) (pre suf : List (List Char))
    (node : List Char) (c : Char) (cs : List Char)
    (hscan : scanNodes sgf = pre ++ node :: suf)
    (hpm : parseMove node = (some c, cs)) :
    (c ≠ (if (pre.foldl sgfStep ⟨[], [], [], []⟩).moves.length % 2 = 0 then 'B' else 'W') →
      ((pre ++ [node]).foldl sgfStep ⟨[], [], [], []⟩).moves =
        (pre.foldl sgfStep ⟨[], [], [], []⟩).moves ++
          ["pass".data, sgfCoordsToPoint cs] ∧
      ((pre ++ [node]).foldl sgfStep ⟨[], [], [], []⟩).probs =
        (pre.foldl sgfStep ⟨[], [], [], []⟩).probs ++
          ["0.00".data, (parseProbScoreComment node).1] ∧
      ((pre ++ [node]).foldl sgfStep ⟨[], [], [], []⟩).scores =
        (pre.foldl sgfStep ⟨[], [], [], []⟩).scores ++
          ["0.00".data, (parseProbScoreComment node).2] ∧
      ((pre ++ [node]).foldl sgfStep ⟨[], [], [], []⟩).comments =
        (pre.foldl sgfStep ⟨[], [], [], []⟩).comments ++
          [[], parseGeneralComment node]) ∧
    (c = (if (pre.foldl sgfStep ⟨[], [], [], []⟩).moves.length % 2 = 0 then 'B' else 'W') →
      ((pre ++ [node]).foldl sgfStep ⟨[], [], [], []⟩).moves =
        (pre.foldl sgfStep ⟨[], [], [], []⟩).moves ++ [sgfCoordsToPoint cs]) ∧
    (if (((pre ++ [node]).foldl sgfStep ⟨[], [], [], []⟩).moves.length - 1) % 2 = 0
        then 'B' else 'W') = c ∧
    ((pre ++ [node]).foldl sgfStep ⟨[], [], [], []⟩).moves <+: (sgf2list sgf).moves := by
  have hstep : ((pre ++ [node]).foldl sgfStep ⟨[], [], [], []⟩) =
      sgfStep (pre.foldl sgfStep ⟨[], [], [], []⟩) node := by
    rw [List.foldl_append, List.foldl_cons, List.foldl_nil]
  have hcol := parseMove_colors hpm
  set st := pre.foldl sgfStep ⟨[], [], [], []⟩ with hst
  have hunf : sgfStep st node =
      (let expectedColor := if st.moves.length % 2 = 0 then 'B' else 'W'
       let st1 :=
        if c ≠ expectedColor then
          { moves := st.moves ++ ["pass".data], probs := st.probs ++ ["0.00".data],
            scores := st.scores ++ ["0.00".data], comments := st.comments ++ [[]] }
        else st
       { moves := st1.moves ++ [sgfCoordsToPoint cs],
         probs := st1.probs ++ [(parseProbScoreComment node).1],
         scores := st1.scores ++ [(parseProbScoreComment node).2],
         comments := st1.comments ++ [parseGeneralComment node] } : SgfAcc) := by
    unfold sgfStep
    rw [hpm]
  refine ⟨?_, ?_, ?_, ?_⟩
  · intro hne
    rw [hstep, hunf]
    dsimp only
    rw [if_pos hne]
    refine ⟨by simp, by simp, by simp, by simp⟩
  · intro heq
    rw [hstep, hunf]
    dsimp only
    rw [if_neg (not_not_intro heq)]
  · rw [hstep, hunf]
    dsimp only
    by_cases hne : c ≠ (if st.moves.length % 2 = 0 then 'B' else 'W')
    · rw [if_pos hne]
      simp only [List.length_append, List.length_cons, List.length_singleton,
        List.length_nil]
      rcases Nat.even_or_odd st.moves.length with he | ho
      · have h0 : st.moves.length % 2 = 0 := Nat.even_iff.mp he
        rcases hcol with rfl | rfl
        · exact absurd (by rw [if_pos h0]) hne
        · rw [if_neg (by omega)]
      · have h1 : st.moves.length % 2 = 1 := Nat.odd_iff.mp ho
        rcases hcol with rfl | rfl
        · rw [if_pos (by omega)]
        · exact absurd (by rw [if_neg (by omega)]) hne
    · push_neg at hne
      rw [if_neg (not_not_intro hne)]
      simp only [List.length_append, List.length_singleton]
      rcases Nat.even_or_odd st.moves.length with he | ho
      · have h0 : st.moves.length % 2 = 0 := Nat.even_iff.mp he
        rw [if_pos (by omega)]
        rw [if_pos h0] at hne
        exact hne.symm
      · have h1 : st.moves.length % 2 = 1 := Nat.odd_iff.mp ho
        rw [if_neg (by omega)]
        rw [if_neg (by omega)] at hne
        exact hne.symm
  · have heq : (sgf2list sgf).moves =
        ((scanNodes sgf).foldl sgfStep ⟨[], [], [], []⟩).moves := rfl
    rw [heq, hscan]
    have hsplit : pre ++ node :: suf = (pre ++ [node]) ++ suf := by simp
    rw [hsplit]
    have hfa := List.foldl_append sgfStep
      (⟨[], [], [], []⟩ : SgfAcc) (pre ++ [node]) suf
    rw [hfa]
    exact foldl_sgfStep_moves_grow suf _

theorem sgf2list_parity_witness :
    ((([";B[pd]".data] : List (List Char)) ++ [";B[pq]".data]).foldl sgfStep
        ⟨[], [], [], []⟩).moves =
      (([";B[pd]".data] : List (List Char)).foldl sgfStep ⟨[], [], [], []⟩).moves ++
        ["pass".data, sgfCoordsToPoint "pq".data] := by
  have h := sgf2list_parity "(;B[pd];B[pq])".data [";B[pd]".data] [] ";B[pq]".data
    'B' "pq".data (by rfl) (by rfl)
  have hne : ('B' : Char) ≠
      (if (([";B[pd]".data] : List (List Char)).foldl sgfStep
          ⟨[], [], [], []⟩).moves.length % 2 = 0 then 'B' else 'W') := by decide
  exact (h.1 hne).1

lemma movesLoop_resign (m : Move) (hm : m.mv = "resign".data) :
    ∀ (pre : List Move) (col : Char) (suf : List Move),
      (∀ x ∈ pre, x.mv ≠ "resign".data) →
      movesLoop (pre ++ m :: suf) col =
        ((movesLoop pre col).1,
          "RE[".data ++ [flipColor (flipColor^[pre.length] col)] ++ "+R]".data) := by
  intro pre
  induction pre with
  | nil =>
    intro col suf _
    rw [List.nil_append]
    simp only [movesLoop]
    rw [if_pos hm]
    simp
  | cons a t ih =>
    intro col suf hpre
    have ha : a.mv ≠ "resign".data := hpre a (List.mem_cons_self _ _)
    rw [List.cons_append]
    simp only [movesLoop]
    simp only [if_neg ha]
    rw [ih (flipColor col) suf (fun x hx => hpre x (List.mem_cons_of_mem _ hx))]
    simp only [List.length_cons, Function.iterate_succ_apply]

/-- claim C8: For every move list containing `resign`, the serializer stops
at the first `resign`: the output is the header, a result tag `RE[X+R]`
where `X` is the color opposite to the resigning color at that ply, and only
the move tokens of the plies before the resign, with no token for the resign
or for any later move. -/
theorem moves2sgf_resign_spec (pre suf : List Move) (m : Move) (md : SgfMetadata)
    (today : List Char) (hm : m.mv = "resign".data)
    (hpre : ∀ x ∈ pre, x.mv ≠ "resign".data) :
    moves2sgf (pre ++ m :: suf) md today =
      sgfHeader md today ++
        ("RE[".data ++ [flipColor (flipColor^[pre.length] 'B')] ++ "+R]".data) ++
        (movesLoop pre 'B').1 ++ ")".data ∧
    (movesLoop (pre ++ m :: suf) 'B').1 = (movesLoop pre 'B').1 ∧
    (movesLoop (pre ++ m :: suf) 'B').2 =
      "RE[".data ++ [flipColor (flipColor^[pre.length] 'B')] ++ "+R]".data := by
  have h := movesLoop_resign m hm pre 'B' suf hpre
  refine ⟨?_, by rw [h], by rw [h]⟩
  unfold moves2sgf
  rw [h]

theorem moves2sgf_resign_spec_witness :
    moves2sgf [⟨"Q16".data, none, none, none⟩, ⟨"resign".data, none, none, none⟩,
        ⟨"D4".data, none, none, none⟩] {} "2024-01-01".data =
      sgfHeader {} "2024-01-01".data ++ "RE[B+R]".data ++
        (movesLoop [⟨"Q16".data, none, none, none⟩] 'B').1 ++ ")".data := by
  have h := moves2sgf_resign_spec [⟨"Q16".data, none, none, none⟩]
    [⟨"D4".data, none, none, none⟩] ⟨"resign".data, none, none, none⟩ {}
    "2024-01-01".data rfl (by decide)
  have h2 := h.1
  simpa using h2

/-! ### Round-trip groundwork: character sets and valid move notation -/

/-- Characters that cannot disturb any of the codec's regex scans: not a
closing bracket, not a node separator, not the comment opener, and not
whitespace. -/
def psSafe (c : Char) : Prop :=
  c ≠ ']' ∧ c ≠ ';' ∧ c ≠ 'C' ∧ c.isWhitespace = false

instance (c : Char) : Decidable (psSafe c) := by unfold psSafe; infer_instance

lemma digitChar_psSafe : ∀ k < 10, psSafe (Char.ofNat (48 + k)) := by decide

lemma natDigitsAux_psSafe :
    ∀ (fuel n : Nat) (c : Char), c ∈ natDigitsAux fuel n → psSafe c := by
  intro fuel
  induction fuel with
  | zero => intro n c h; simp [natDigitsAux] at h
  | succ f ih =>
    intro n c h
    rw [natDigitsAux] at h
    by_cases hn : n = 0
    · rw [if_pos hn] at h; simp at h
    · rw [if_neg hn] at h
      rcases List.mem_append.mp h with h' | h'
      · exact ih _ c h'
      · simp only [List.mem_singleton] at h'
        subst h'
        exact digitChar_psSafe _ (Nat.mod_lt _ (by norm_num))

lemma natToDigits_psSafe {n : Nat} {c : Char} (h : c ∈ natToDigits n) : psSafe c := by
  unfold natToDigits at h
  by_cases hn : n = 0
  · rw [if_pos hn] at h
    simp only [List.mem_singleton] at h
    subst h
    decide
  · rw [if_neg hn] at h
    exact natDigitsAux_psSafe _ _ _ h

lemma natToDigits_ne_nil (n : Nat) : natToDigits n ≠ [] := by
  unfold natToDigits
  by_cases hn : n = 0
  · rw [if_pos hn]; simp
  · rw [if_neg hn]
    match n, hn with
    | m + 1, _ =>
      rw [natDigitsAux, if_neg (by omega)]
      simp

lemma toFixed1_psSafe {q : ℚ} {c : Char} (h : c ∈ toFixed1 q) : psSafe c := by
  unfold toFixed1 at h
  dsimp only at h
  split_ifs at h
  · rcases List.mem_cons.mp h with rfl | h'
    · decide
    · rcases List.mem_append.mp h' with h2 | h2
      · exact natToDigits_psSafe h2
      · rcases List.mem_cons.mp h2 with rfl | h3
        · decide
        · exact natToDigits_psSafe h3
  · rcases List.mem_append.mp h with h2 | h2
    · exact natToDigits_psSafe h2
    · rcases List.mem_cons.mp h2 with rfl | h3
      · decide
      · exact natToDigits_psSafe h3

lemma toFixed1_ne_nil (q : ℚ) : toFixed1 q ≠ [] := by
  unfold toFixed1
  dsimp only
  split_ifs
  · simp
  · intro hcon
    exact natToDigits_ne_nil _ (List.append_eq_nil.mp hcon).1

/-- A valid 19×19 human-notation coordinate move: an I-skipping column
letter and a row number in `[1, 19]`. -/
def ValidCoordMv (mv : List Char) : Prop :=
  ∃ c < 19, ∃ r ≤ 19, 1 ≤ r ∧ mv = HUMAN_COORD_LETTERS.getD c '?' :: natToDigits r

lemma validCoord_roundtrip {mv : List Char} (h : ValidCoordMv mv) :
    sgfCoordsToPoint (pointToSgfCoords mv) = mv := by
  obtain ⟨c, hc, r, hr, hr1, rfl⟩ := h
  revert hr1
  revert r hr
  revert c hc
  decide

lemma validCoord_chars {mv : List Char} (h : ValidCoordMv mv) :
    ∀ ch ∈ pointToSgfCoords mv, ch ∈ SGF_COORD_LETTERS := by
  obtain ⟨c, hc, r, hr, hr1, rfl⟩ := h
  revert hr1
  revert r hr
  revert c hc
  decide

lemma sgfLetters_psSafe : ∀ c ∈ SGF_COORD_LETTERS, psSafe c := by decide

lemma validCoord_ne_resign {mv : List Char} (h : ValidCoordMv mv) :
    mv ≠ "resign".data := by
  obtain ⟨c, hc, r, hr, hr1, rfl⟩ := h
  intro hcon
  have hhead : HUMAN_COORD_LETTERS.getD c '?' = 'r' := by
    have := congrArg List.head? hcon
    simpa using this
  have hall : ∀ i < 19, HUMAN_COORD_LETTERS.getD i '?' ≠ 'r' := by decide
  exact hall c hc hhead

lemma validCoord_ne_pass {mv : List Char} (h : ValidCoordMv mv) :
    mv ≠ "pass".data := by
  obtain ⟨c, hc, r, hr, hr1, rfl⟩ := h
  intro hcon
  have hhead : HUMAN_COORD_LETTERS.getD c '?' = 'p' := by
    have := congrArg List.head? hcon
    simpa using this
  have hall : ∀ i < 19, HUMAN_COORD_LETTERS.getD i '?' ≠ 'p' := by decide
  exact hall c hc hhead

/-- The moves claim C3 quantifies over: valid 19×19 notation or a pass, no
resign, and no free-text comment. -/
def RoundtripMove (m : Move) : Prop :=
  (m.mv = "pass".data ∨ ValidCoordMv m.mv) ∧ m.comment = none

lemma roundtrip_mv_ne_resign {m : Move} (h : RoundtripMove m) :
    m.mv ≠ "resign".data := by
  rcases h.1 with hp | hv
  · rw [hp]; decide
  · exact validCoord_ne_resign hv

lemma roundtrip_coords_psSafe {m : Move} (h : RoundtripMove m) :
    ∀ ch ∈ pointToSgfCoords m.mv, psSafe ch := by
  rcases h.1 with hp | hv
  · rw [hp]
    intro ch hch
    simp [pointToSgfCoords] at hch
  · intro ch hch
    exact sgfLetters_psSafe ch (validCoord_chars hv ch hch)

lemma roundtrip_coords_eq {m : Move} (h : RoundtripMove m) :
    sgfCoordsToPoint (pointToSgfCoords m.mv) = m.mv := by
  rcases h.1 with hp | hv
  · rw [hp]; decide
  · exact validCoord_roundtrip hv

/-! ### Round-trip groundwork: scanner lemmas -/

lemma takeToRBracket_append {a b : List Char} (h : ']' ∉ a) :
    takeToRBracket (a ++ ']' :: b) = some a := by
  induction a with
  | nil => rw [List.nil_append, takeToRBracket, if_pos rfl]
  | cons c t ih =>
    simp only [List.mem_cons, not_or] at h
    rw [List.cons_append, takeToRBracket, if_neg (Ne.symm h.1), ih h.2]
    rfl

lemma isPrefixOf_false_of_head {pc : Char} {pat' : List Char} {c : Char} {t : List Char}
    (h : c ≠ pc) : (pc :: pat').isPrefixOf (c :: t) = false := by
  simp [List.isPrefixOf, Ne.symm h]

lemma findCapture_skip {pc : Char} {pat' : List Char} {a b : List Char}
    (h : ∀ c ∈ a, c ≠ pc) : findCapture (pc :: pat') (a ++ b) = findCapture (pc :: pat') b := by
  induction a with
  | nil => rw [List.nil_append]
  | cons c t ih =>
    rw [List.cons_append, findCapture,
      if_neg (by rw [isPrefixOf_false_of_head (h c (List.mem_cons_self _ _))]; simp)]
    exact ih (fun x hx => h x (List.mem_cons_of_mem _ hx))

lemma findCapture_here {pat : List Char} {c : Char} {t : List Char}
    (h : pat.isPrefixOf (c :: t) = true) :
    findCapture pat (c :: t) = takeToRBracket ((c :: t).drop pat.length) := by
  rw [findCapture, if_pos h]

lemma psAt_none_of_head {c : Char} {t : List Char} (h : c ≠ 'C') :
    psAt (c :: t) = none := by
  unfold psAt
  rw [if_neg (by rw [isPrefixOf_false_of_head h]; simp)]

lemma findPS_skip {a b : List Char} (h : ∀ c ∈ a, c ≠ 'C') :
    findPS (a ++ b) = findPS b := by
  induction a with
  | nil => rw [List.nil_append]
  | cons c t ih =>
    rw [List.cons_append, findPS, psAt_none_of_head (h c (List.mem_cons_self _ _))]
    exact ih (fun x hx => h x (List.mem_cons_of_mem _ hx))

lemma findPS_none {l : List Char} (h : ∀ c ∈ l, c ≠ 'C') : findPS l = none := by
  have := findPS_skip (a := l) (b := []) h
  rw [List.append_nil] at this
  rw [this]
  rfl

lemma takeWhile_append_stop {p : Char → Bool} {a : List Char} {x : Char} {b : List Char}
    (ha : ∀ c ∈ a, p c = true) (hx : p x = false) :
    (a ++ x :: b).takeWhile p = a ∧ (a ++ x :: b).dropWhile p = x :: b := by
  induction a with
  | nil => simp [List.takeWhile, List.dropWhile, hx]
  | cons c t ih =>
    have hc := ha c (List.mem_cons_self _ _)
    have iht := ih (fun y hy => ha y (List.mem_cons_of_mem _ hy))
    constructor
    · rw [List.cons_append, List.takeWhile_cons_of_pos hc, iht.1]
    · rw [List.cons_append, List.dropWhile_cons_of_pos hc, iht.2]

lemma matchNode_none_head {l : List Char} (h : l.head? ≠ some ';') :
    matchNode l = none := by
  match l with
  | [] => rfl
  | [c] => rfl
  | [c, d] => rfl
  | c :: d :: e :: t =>
    simp only [List.head?] at h
    unfold matchNode
    dsimp only
    rw [if_neg (fun hcon => h (by rw [hcon.1]))]

lemma matchNode_none_second {c : Char} {t : List Char} {l : List Char}
    (hl : l = ';' :: c :: t) (hc : c ≠ 'B' ∧ c ≠ 'W') : matchNode l = none := by
  subst hl
  match t with
  | [] => rfl
  | e :: t' =>
    unfold matchNode
    dsimp only
    rw [if_neg (fun hcon => by rcases hcon.2.1 with h | h; exacts [hc.1 h, hc.2 h])]

lemma matchNode_tok_noC {color : Char} {coords rest : List Char}
    (hc : color = 'B' ∨ color = 'W') (hcoords : ']' ∉ coords)
    (hrest : "C[".data.isPrefixOf rest = false) :
    matchNode (';' :: color :: '[' :: (coords ++ ']' :: rest)) =
      some (';' :: color :: '[' :: (coords ++ [']']), rest) := by
  unfold matchNode
  dsimp only
  rw [if_pos ⟨rfl, hc, rfl⟩, splitRBracket_append hcoords]
  dsimp only
  rw [hrest]
  rfl

lemma matchNode_tok_C {color : Char} {coords body rest : List Char}
    (hc : color = 'B' ∨ color = 'W') (hcoords : ']' ∉ coords) (hbody : ']' ∉ body) :
    matchNode (';' :: color :: '[' :: (coords ++ ']' :: ('C' :: '[' :: (body ++ ']' :: rest)))) =
      some ((';' :: color :: '[' :: (coords ++ [']'])) ++ 'C' :: '[' :: (body ++ [']']), rest) := by
  unfold matchNode
  dsimp only
  rw [if_pos ⟨rfl, hc, rfl⟩, splitRBracket_append hcoords]
  dsimp only
  rw [if_pos (by simp [List.isPrefixOf])]
  rw [show ('C' :: '[' :: (body ++ ']' :: rest)).drop 2 = body ++ ']' :: rest from rfl,
    splitRBracket_append hbody]

lemma scanNodes_skip_semifree {h rest : List Char} (hsemi : ∀ c ∈ h, c ≠ ';') :
    scanNodes (h ++ rest) = scanNodes rest := by
  induction h with
  | nil => rw [List.nil_append]
  | cons c t ih =>
    rw [List.cons_append,
      scanNodes_cons_none (matchNode_none_head (by
        simp only [List.head?, ne_eq, Option.some.injEq]
        exact hsemi c (List.mem_cons_self _ _)))]
    exact ih (fun x hx => hsemi x (List.mem_cons_of_mem _ hx))

/-! ### Round-trip groundwork: the emitted tokens -/

/-- The body of the `C[P:.. S:..]` analysis comment a move carries. -/
def psBody (m : Move) : List Char :=
  'P' :: ':' :: (toFixed1 (m.p.getD 0 * 100) ++ ' ' :: 'S' :: ':' :: toFixed1 (m.score.getD 0))

/-- The `;B[..]`/`;W[..]` part of a serialized move token. -/
def tokMain (m : Move) (color : Char) : List Char :=
  ';' :: color :: '[' :: (pointToSgfCoords m.mv ++ [']'])

/-- The full serialized token of a comment-free move. -/
def tokOf (m : Move) (color : Char) : List Char :=
  tokMain m color ++
    (if m.p.isSome && m.score.isSome then 'C' :: '[' :: (psBody m ++ [']']) else [])

/-- The sequence of tokens `movesLoop` emits for a resign-free path. -/
def tokenList : List Move → Char → List (List Char)
  | [], _ => []
  | m :: rest, color => tokOf m color :: tokenList rest (flipColor color)

lemma movesLoop_tokens :
    ∀ (ms : List Move) (col : Char), (∀ m ∈ ms, RoundtripMove m) →
      movesLoop ms col = ((tokenList ms col).flatten, []) := by
  intro ms
  induction ms with
  | nil => intro col _; rfl
  | cons m rest ih =>
    intro col hval
    have hm := hval m (List.mem_cons_self _ _)
    simp only [movesLoop]
    rw [if_neg (roundtrip_mv_ne_resign hm)]
    rw [ih (flipColor col) (fun x hx => hval x (List.mem_cons_of_mem _ hx))]
    rw [hm.2]
    simp only [jtruthy, Bool.not_false, if_neg (by simp : ¬(false = true)),
      Bool.and_true]
    simp only [tokenList, List.flatten_cons, tokOf, tokMain, psBody]
    by_cases hps : m.p.isSome && m.score.isSome
    · rw [if_pos hps, if_pos (by simpa using hps)]
      rw [Prod.mk.injEq]
      refine ⟨?_, rfl⟩
      simp [List.append_assoc]
    · rw [if_neg hps, if_neg (by simpa using hps)]
      rw [Prod.mk.injEq]
      refine ⟨?_, rfl⟩
      simp [List.append_assoc]

lemma psBody_no_rbracket (m : Move) : ']' ∉ psBody m := by
  unfold psBody
  intro h
  rcases List.mem_cons.mp h with h1 | h1
  · exact absurd h1 (by decide)
  rcases List.mem_cons.mp h1 with h2 | h2
  · exact absurd h2 (by decide)
  rcases List.mem_append.mp h2 with h3 | h3
  · exact (toFixed1_psSafe h3).1 rfl
  rcases List.mem_cons.mp h3 with h4 | h4
  · exact absurd h4 (by decide)
  rcases List.mem_cons.mp h4 with h5 | h5
  · exact absurd h5 (by decide)
  rcases List.mem_cons.mp h5 with h6 | h6
  · exact absurd h6 (by decide)
  · exact (toFixed1_psSafe h6).1 rfl

lemma coords_no_rbracket {m : Move} (hm : RoundtripMove m) :
    ']' ∉ pointToSgfCoords m.mv :=
  fun h => (roundtrip_coords_psSafe hm ']' h).1 rfl

lemma isPrefixOf_C_false {l : List Char} (h : l.head? ≠ some 'C') :
    ("C[".data.isPrefixOf l) = false := by
  match l with
  | [] => rfl
  | c :: t =>
    simp only [List.head?, ne_eq, Option.some.injEq] at h
    exact isPrefixOf_false_of_head h

lemma tokenList_join_head (ms : List Move) (col : Char) :
    ((tokenList ms col).flatten ++ [')']).head? = some ';' ∨
    ((tokenList ms col).flatten ++ [')']).head? = some ')' := by
  match ms with
  | [] => exact Or.inr rfl
  | m :: rest =>
    simp only [tokenList, List.flatten_cons, tokOf, tokMain]
    exact Or.inl rfl

lemma flipColor_mem {col : Char} (h : col = 'B' ∨ col = 'W') :
    flipColor col = 'B' ∨ flipColor col = 'W' := by
  rcases h with rfl | rfl
  · exact Or.inr rfl
  · exact Or.inl rfl

lemma scan_tokenList :
    ∀ (ms : List Move) (col : Char), (col = 'B' ∨ col = 'W') →
      (∀ m ∈ ms, RoundtripMove m) →
      scanNodes ((tokenList ms col).flatten ++ [')']) = tokenList ms col := by
  intro ms
  induction ms with
  | nil =>
    intro col _ _
    show scanNodes (([] : List (List Char)).flatten ++ [')']) = []
    rw [List.flatten_nil, List.nil_append,
      scanNodes_cons_none (matchNode_none_head (by decide))]
    rfl
  | cons m rest ih =>
    intro col hcol hval
    have hm := hval m (List.mem_cons_self _ _)
    have hihp := ih (flipColor col) (flipColor_mem hcol)
      (fun x hx => hval x (List.mem_cons_of_mem _ hx))
    have hhead := tokenList_join_head rest (flipColor col)
    simp only [tokenList, List.flatten_cons]
    by_cases hps : m.p.isSome && m.score.isSome
    · obtain ⟨hp1, hp2⟩ := Bool.and_eq_true_iff.mp hps
      have hshape : (tokOf m col ++ (tokenList rest (flipColor col)).flatten) ++ [')'] =
          ';' :: col :: '[' :: (pointToSgfCoords m.mv ++ ']' ::
            ('C' :: '[' :: (psBody m ++ ']' ::
              ((tokenList rest (flipColor col)).flatten ++ [')'])))) := by
        simp [tokOf, tokMain, hp1, hp2, List.append_assoc]
      rw [hshape,
        scanNodes_cons_some (matchNode_tok_C hcol (coords_no_rbracket hm)
          (psBody_no_rbracket m)), hihp]
      congr 1
      simp [tokOf, tokMain, hp1, hp2]
    · have hps' : ¬(m.p.isSome = true ∧ m.score.isSome = true) := by
        rw [← Bool.and_eq_true_iff]
        exact hps
      have hshape : (tokOf m col ++ (tokenList rest (flipColor col)).flatten) ++ [')'] =
          ';' :: col :: '[' :: (pointToSgfCoords m.mv ++ ']' ::
            ((tokenList rest (flipColor col)).flatten ++ [')'])) := by
        simp [tokOf, tokMain, if_neg hps', List.append_assoc]
      have hnoC : ("C[".data.isPrefixOf
          ((tokenList rest (flipColor col)).flatten ++ [')'])) = false := by
        apply isPrefixOf_C_false
        rcases hhead with h | h <;> rw [h] <;> decide
      rw [hshape,
        scanNodes_cons_some (matchNode_tok_noC hcol (coords_no_rbracket hm) hnoC), hihp]
      congr 1
      simp [tokOf, tokMain, if_neg hps']

/-! ### Round-trip groundwork: parsing one emitted token -/

lemma tokMain_no_semi {m : Move} {col : Char} (hm : RoundtripMove m)
    (hcol : col = 'B' ∨ col = 'W') :
    ∀ c ∈ (tokMain m col).tail, c ≠ ';' := by
  intro c hc
  simp only [tokMain, List.tail_cons] at hc
  rcases List.mem_cons.mp hc with rfl | hc1
  · rcases hcol with rfl | rfl <;> decide
  rcases List.mem_cons.mp hc1 with rfl | hc2
  · decide
  rcases List.mem_append.mp hc2 with hc3 | hc3
  · exact (roundtrip_coords_psSafe hm c hc3).2.1
  · simp only [List.mem_singleton] at hc3; subst hc3; decide

lemma psGroup_no_semi (m : Move) :
    ∀ c ∈ 'C' :: '[' :: (psBody m ++ [']']), c ≠ ';' := by
  intro c hc
  rcases List.mem_cons.mp hc with rfl | hc1
  · decide
  rcases List.mem_cons.mp hc1 with rfl | hc2
  · decide
  rcases List.mem_append.mp hc2 with hc3 | hc3
  · unfold psBody at hc3
    rcases List.mem_cons.mp hc3 with rfl | hc4
    · decide
    rcases List.mem_cons.mp hc4 with rfl | hc5
    · decide
    rcases List.mem_append.mp hc5 with hc6 | hc6
    · exact (toFixed1_psSafe hc6).2.1
    rcases List.mem_cons.mp hc6 with rfl | hc7
    · decide
    rcases List.mem_cons.mp hc7 with rfl | hc8
    · decide
    rcases List.mem_cons.mp hc8 with rfl | hc9
    · decide
    · exact (toFixed1_psSafe hc9).2.1
  · simp only [List.mem_singleton] at hc3; subst hc3; decide

lemma tokMain_no_C {m : Move} {col : Char} (hm : RoundtripMove m)
    (hcol : col = 'B' ∨ col = 'W') :
    ∀ c ∈ tokMain m col, c ≠ 'C' := by
  intro c hc
  simp only [tokMain] at hc
  rcases List.mem_cons.mp hc with rfl | hc1
  · decide
  rcases List.mem_cons.mp hc1 with rfl | hc2
  · rcases hcol with rfl | rfl <;> decide
  rcases List.mem_cons.mp hc2 with rfl | hc3
  · decide
  rcases List.mem_append.mp hc3 with hc4 | hc4
  · exact (roundtrip_coords_psSafe hm c hc4).2.2.1
  · simp only [List.mem_singleton] at hc4; subst hc4; decide

lemma findCapture_none_all {pc : Char} {pat' l : List Char}
    (h : ∀ c ∈ l, c ≠ pc) : findCapture (pc :: pat') l = none := by
  have := @findCapture_skip pc pat' l [] h
  rw [List.append_nil] at this
  rw [this]
  rfl

/-- Parsing the emitted token recovers its color and coordinates. -/
lemma parseMove_tokOf {m : Move} {col : Char} (hm : RoundtripMove m)
    (hcol : col = 'B' ∨ col = 'W') :
    parseMove (tokOf m col) = (some col, pointToSgfCoords m.mv) := by
  have hcoords := coords_no_rbracket hm
  have hT : ∀ c ∈ col :: '[' :: (pointToSgfCoords m.mv ++ ']' ::
      (if m.p.isSome && m.score.isSome then 'C' :: '[' :: (psBody m ++ [']']) else [])),
      c ≠ ';' := by
    intro c hc
    rcases List.mem_cons.mp hc with rfl | hc1
    · rcases hcol with rfl | rfl <;> decide
    rcases List.mem_cons.mp hc1 with rfl | hc2
    · decide
    rcases List.mem_append.mp hc2 with hc3 | hc3
    · exact (roundtrip_coords_psSafe hm c hc3).2.1
    rcases List.mem_cons.mp hc3 with rfl | hc4
    · decide
    · split_ifs at hc4 with hps
      · exact psGroup_no_semi m c hc4
      · simp at hc4
  have hshape : tokOf m col = ';' :: (col :: '[' :: (pointToSgfCoords m.mv ++ ']' ::
      (if m.p.isSome && m.score.isSome then 'C' :: '[' :: (psBody m ++ [']']) else []))) := by
    simp [tokOf, tokMain, List.append_assoc]
  rcases hcol with rfl | rfl
  · have hcap : findCapture ";B[".data (tokOf m 'B') =
        some (pointToSgfCoords m.mv) := by
      conv in findCapture _ _ => rw [hshape]
      rw [findCapture, if_pos (by simp [List.isPrefixOf]),
        show ";B[".data.length = 3 from rfl]
      simp only [List.drop_succ_cons, List.drop_zero]
      rw [takeToRBracket_append hcoords]
    unfold parseMove
    rw [hcap]
  · have hBnone : findCapture ";B[".data (tokOf m 'W') = none := by
      conv in findCapture _ _ => rw [hshape]
      rw [findCapture, if_neg (by simp [List.isPrefixOf])]
      exact findCapture_none_all hT
    have hWsome : findCapture ";W[".data (tokOf m 'W') =
        some (pointToSgfCoords m.mv) := by
      conv in findCapture _ _ => rw [hshape]
      rw [findCapture, if_pos (by simp [List.isPrefixOf]),
        show ";W[".data.length = 3 from rfl]
      simp only [List.drop_succ_cons, List.drop_zero]
      rw [takeToRBracket_append hcoords]
    unfold parseMove
    rw [hBnone, hWsome]

lemma isEmpty_false_of_ne_nil {l : List Char} (h : l ≠ []) : l.isEmpty = false := by
  cases l with
  | nil => exact absurd rfl h
  | cons c t => rfl

lemma toFixed1_nonspace (q : ℚ) : ∀ c ∈ toFixed1 q, (!c.isWhitespace) = true := by
  intro c hc
  rw [(toFixed1_psSafe hc).2.2.2]
  rfl

lemma toFixed1_ne_rbracket (q : ℚ) :
    ∀ c ∈ toFixed1 q, (decide ¬(c = ']')) = true := by
  intro c hc
  simpa using (toFixed1_psSafe hc).1

/-- `psAt` succeeds on the analysis-comment group and captures exactly the
formatted probability and score. -/
lemma psAt_group (m : Move) :
    psAt ('C' :: '[' :: (psBody m ++ [']'])) =
      some (toFixed1 (m.p.getD 0 * 100), toFixed1 (m.score.getD 0)) := by
  have hx : 'C' :: '[' :: (psBody m ++ [']']) =
      'C' :: '[' :: 'P' :: ':' ::
        (toFixed1 (m.p.getD 0 * 100) ++
          ' ' :: ('S' :: ':' :: (toFixed1 (m.score.getD 0) ++ [']']))) := by
    simp [psBody, List.append_assoc]
  rw [hx]
  unfold psAt
  rw [if_pos (by simp [List.isPrefixOf])]
  rw [show ('C' :: '[' :: 'P' :: ':' ::
      (toFixed1 (m.p.getD 0 * 100) ++
        ' ' :: ('S' :: ':' :: (toFixed1 (m.score.getD 0) ++ [']'])))).drop 4 =
    toFixed1 (m.p.getD 0 * 100) ++
      ' ' :: ('S' :: ':' :: (toFixed1 (m.score.getD 0) ++ [']'])) from rfl]
  obtain ⟨ht1, -⟩ := takeWhile_append_stop (toFixed1_nonspace (m.p.getD 0 * 100))
    (show (!(' '.isWhitespace)) = false from rfl)
    (b := 'S' :: ':' :: (toFixed1 (m.score.getD 0) ++ [']']))
  unfold psAtRest
  rw [ht1, isEmpty_false_of_ne_nil (toFixed1_ne_nil _), if_neg (by simp)]
  rw [List.drop_left]
  obtain ⟨hw1, -⟩ := takeWhile_append_stop
    (p := Char.isWhitespace) (a := [' '])
    (by intro c hc; simp only [List.mem_singleton] at hc; subst hc; rfl)
    (show ('S'.isWhitespace) = false from rfl)
    (b := ':' :: (toFixed1 (m.score.getD 0) ++ [']']))
  unfold psAtWs
  rw [show (' ' :: ('S' :: ':' :: (toFixed1 (m.score.getD 0) ++ [']']))) =
    [' '] ++ 'S' :: (':' :: (toFixed1 (m.score.getD 0) ++ [']'])) from rfl, hw1]
  rw [show ([' '] : List Char).isEmpty = false from rfl, if_neg (by simp)]
  rw [List.drop_left]
  unfold psAtS
  rw [if_pos (by simp [List.isPrefixOf])]
  rw [show ('S' :: (':' :: (toFixed1 (m.score.getD 0) ++ [']']))).drop 2 =
    toFixed1 (m.score.getD 0) ++ [']'] from rfl]
  have hstop : (decide ¬((']' : Char) = ']')) = false := by simp
  obtain ⟨hg2, -⟩ := takeWhile_append_stop (toFixed1_ne_rbracket (m.score.getD 0)) hstop
    (b := ([] : List Char))
  unfold psAtG2
  rw [show (toFixed1 (m.score.getD 0) ++ [']'] : List Char) =
    toFixed1 (m.score.getD 0) ++ ']' :: [] from rfl, hg2]
  rw [isEmpty_false_of_ne_nil (toFixed1_ne_nil _), if_neg (by simp)]
  rw [List.drop_left]
  simp

/-- The recovered probability/score of an emitted token. -/
lemma parseProbScore_tokOf {m : Move} {col : Char} (hm : RoundtripMove m)
    (hcol : col = 'B' ∨ col = 'W') :
    parseProbScoreComment (tokOf m col) =
      (if m.p.isSome && m.score.isSome then toFixed1 (m.p.getD 0 * 100) else "0.00".data,
       if m.p.isSome && m.score.isSome then toFixed1 (m.score.getD 0) else "0.00".data) := by
  unfold parseProbScoreComment
  by_cases hps : m.p.isSome && m.score.isSome
  · rw [if_pos hps, if_pos hps]
    have : findPS (tokOf m col) =
        some (toFixed1 (m.p.getD 0 * 100), toFixed1 (m.score.getD 0)) := by
      rw [tokOf, if_pos hps, findPS_skip (tokMain_no_C hm hcol)]
      rw [findPS, psAt_group]
    rw [this]
    rfl
  · rw [if_neg hps, if_neg hps]
    have : findPS (tokOf m col) = none := by
      rw [tokOf, if_neg hps, List.append_nil]
      exact findPS_none (tokMain_no_C hm hcol)
    rw [this]
    rfl

/-- The emitted token never carries a general comment. -/
lemma parseGeneralComment_tokOf {m : Move} {col : Char} (hm : RoundtripMove m)
    (hcol : col = 'B' ∨ col = 'W') :
    parseGeneralComment (tokOf m col) = [] := by
  unfold parseGeneralComment
  by_cases hps : m.p.isSome && m.score.isSome
  · have hcap : findCapture "C[".data (tokOf m col) = some (psBody m) := by
      rw [tokOf, if_pos hps, findCapture_skip (tokMain_no_C hm hcol)]
      rw [findCapture, if_pos (by simp [List.isPrefixOf])]
      rw [show ('C' :: '[' :: (psBody m ++ [']'])).drop ("C[".data.length) =
        psBody m ++ ']' :: [] from rfl]
      exact takeToRBracket_append (psBody_no_rbracket m)
    rw [hcap]
    dsimp only
    rw [if_pos (Or.inl (by simp [psBody, List.isPrefixOf]))]
  · have hcap : findCapture "C[".data (tokOf m col) = none := by
      rw [tokOf, if_neg hps, List.append_nil]
      exact findCapture_none_all (tokMain_no_C hm hcol)
    rw [hcap]

/-- The probability string `sgf2list` recovers for an emitted move. -/
def probOf (m : Move) : List Char :=
  if m.p.isSome && m.score.isSome then toFixed1 (m.p.getD 0 * 100) else "0.00".data

/-- The score string `sgf2list` recovers for an emitted move. -/
def scoreOf (m : Move) : List Char :=
  if m.p.isSome && m.score.isSome then toFixed1 (m.score.getD 0) else "0.00".data

lemma process_tokenList :
    ∀ (ms : List Move) (st : SgfAcc) (col : Char),
      (col = 'B' ∨ col = 'W') → (∀ m ∈ ms, RoundtripMove m) →
      col = (if st.moves.length % 2 = 0 then 'B' else 'W') →
      (tokenList ms col).foldl sgfStep st =
        { moves := st.moves ++ ms.map (fun m => m.mv),
          probs := st.probs ++ ms.map probOf,
          scores := st.scores ++ ms.map scoreOf,
          comments := st.comments ++ ms.map (fun _ => []) } := by
  intro ms
  induction ms with
  | nil =>
    intro st col _ _ _
    simp only [tokenList, List.foldl_nil, List.map_nil, List.append_nil]
  | cons m rest ih =>
    intro st col hcol hval hpar
    have hm := hval m (List.mem_cons_self _ _)
    have hstep : sgfStep st (tokOf m col) =
        { moves := st.moves ++ [m.mv],
          probs := st.probs ++ [probOf m],
          scores := st.scores ++ [scoreOf m],
          comments := st.comments ++ [[]] } := by
      unfold sgfStep
      rw [parseMove_tokOf hm hcol]
      dsimp only
      simp only [if_neg (not_not_intro hpar)]
      rw [roundtrip_coords_eq hm, parseProbScore_tokOf hm hcol,
        parseGeneralComment_tokOf hm hcol]
      rfl
    have hpar' : flipColor col =
        (if (sgfStep st (tokOf m col)).moves.length % 2 = 0 then 'B' else 'W') := by
      rw [hstep]
      simp only [List.length_append, List.length_singleton]
      rcases Nat.even_or_odd st.moves.length with he | ho
      · have h0 : st.moves.length % 2 = 0 := Nat.even_iff.mp he
        rw [if_pos h0] at hpar
        rw [if_neg (by omega), hpar, flipColor]
        simp
      · have h1 : st.moves.length % 2 = 1 := Nat.odd_iff.mp ho
        rw [if_neg (by omega)] at hpar
        rw [if_pos (by omega), hpar, flipColor]
        simp
    simp only [tokenList, List.foldl_cons]
    rw [ih (sgfStep st (tokOf m col)) (flipColor col) (flipColor_mem hcol)
        (fun x hx => hval x (List.mem_cons_of_mem _ hx)) hpar', hstep]
    simp [List.append_assoc]

/-! ### Round-trip: assembling the serialized game -/

lemma sgfHeader_shape (today : List Char) :
    sgfHeader {} today =
      "(;FF[4]SZ[19]\nSO[katagui.baduk.club]\nPB[Black]\nPW[White]\nRE[]\nKM[7.5]\nDT[".data ++
        (today ++ "]\n".data) := by
  show "(;FF[4]SZ[19]\n".data ++ "SO[katagui.baduk.club]\n".data ++
      "PB[".data ++ "Black".data ++ "]\n".data ++
      "PW[".data ++ "White".data ++ "]\n".data ++
      "RE[".data ++ ([] : List Char) ++ "]\n".data ++
      "KM[".data ++ "7.5".data ++ "]\n".data ++
      "DT[".data ++ today ++ "]\n".data ++ ([] : List Char) = _
  simp only [List.append_nil, List.append_assoc]
  generalize today ++ "]\n".data = X
  simp only [← List.append_assoc]
  exact congrArg (fun l => l ++ X) (by decide)

lemma scanNodes_skip_header {t rest : List Char} (ht : ∀ c ∈ t, c ≠ ';') :
    scanNodes ('(' :: ';' :: 'F' :: (t ++ rest)) = scanNodes rest := by
  rw [scanNodes_cons_none (matchNode_none_head (by simp))]
  rw [scanNodes_cons_none (matchNode_none_second rfl (by decide))]
  rw [show ('F' : Char) :: (t ++ rest) = ('F' :: t) ++ rest from rfl]
  exact scanNodes_skip_semifree (by
    intro c hc
    rcases List.mem_cons.mp hc with rfl | hc1
    · decide
    · exact ht c hc1)

/-- claim C3: Serializing a branch-free path of comment-free moves (valid
19×19 human notation or passes, no resign) with `moves2sgf` under empty
metadata and then parsing the output with `sgf2list` reproduces the same
move list and the same komi, and for every move whose probability and score
were present it reproduces that probability (as a percentage with one
decimal place) and that score (with one decimal place). -/
theorem moves2sgf_sgf2list_roundtrip (moves : List Move) (today : List Char)
    (hval : ∀ m ∈ moves, RoundtripMove m) (htoday : ∀ c ∈ today, c ≠ ';') :
    (sgf2list (moves2sgf moves {} today)).moves = moves.map (fun m => m.mv) ∧
    (sgf2list (moves2sgf moves {} today)).komi = 7.5 ∧
    ∀ (i : ℕ) (m : Move) (p s : ℚ),
      moves[i]? = some m → m.p = some p → m.score = some s →
      (sgf2list (moves2sgf moves {} today)).probs[i]? =
          some (toFixed1 (p * 100)) ∧
      (sgf2list (moves2sgf moves {} today)).scores[i]? = some (toFixed1 s) := by
  have hml := movesLoop_tokens moves 'B' hval
  have hsgf1 : moves2sgf moves {} today =
      sgfHeader {} today ++ ((tokenList moves 'B').flatten ++ [')']) := by
    unfold moves2sgf
    rw [hml]
    dsimp only
    simp [List.append_assoc]
  have hsemifree : ∀ c ∈
      "F[4]SZ[19]\nSO[katagui.baduk.club]\nPB[Black]\nPW[White]\nRE[]\nKM[7.5]\nDT[".data ++
        (today ++ "]\n".data), c ≠ ';' := by
    intro c hc
    rcases List.mem_append.mp hc with h2 | h2
    · exact (by decide :
        ∀ x ∈ "F[4]SZ[19]\nSO[katagui.baduk.club]\nPB[Black]\nPW[White]\nRE[]\nKM[7.5]\nDT[".data,
          x ≠ ';') c h2
    rcases List.mem_append.mp h2 with h3 | h3
    · exact htoday c h3
    · exact (by decide : ∀ x ∈ "]\n".data, x ≠ ';') c h3
  have hscan : scanNodes (moves2sgf moves {} today) = tokenList moves 'B' := by
    rw [hsgf1, sgfHeader_shape]
    rw [show ("(;FF[4]SZ[19]\nSO[katagui.baduk.club]\nPB[Black]\nPW[White]\nRE[]\nKM[7.5]\nDT[".data ++
          (today ++ "]\n".data)) ++ ((tokenList moves 'B').flatten ++ [')']) =
        '(' :: ';' :: 'F' ::
          (("F[4]SZ[19]\nSO[katagui.baduk.club]\nPB[Black]\nPW[White]\nRE[]\nKM[7.5]\nDT[".data ++
              (today ++ "]\n".data)) ++ ((tokenList moves 'B').flatten ++ [')']))
      from by
        conv_lhs => rw [show
          ("(;FF[4]SZ[19]\nSO[katagui.baduk.club]\nPB[Black]\nPW[White]\nRE[]\nKM[7.5]\nDT[".data :
            List Char) =
          '(' :: ';' :: 'F' ::
            "F[4]SZ[19]\nSO[katagui.baduk.club]\nPB[Black]\nPW[White]\nRE[]\nKM[7.5]\nDT[".data
          from rfl]
        simp only [List.cons_append, List.append_assoc]]
    rw [scanNodes_skip_header hsemifree]
    exact scan_tokenList moves 'B' (Or.inl rfl) hval
  have hfold := process_tokenList moves ⟨[], [], [], []⟩ 'B' (Or.inl rfl) hval rfl
  have hmv : (sgf2list (moves2sgf moves {} today)).moves =
      moves.map (fun m => m.mv) := by
    show ((scanNodes (moves2sgf moves {} today)).foldl sgfStep ⟨[], [], [], []⟩).moves = _
    rw [hscan, hfold]
    rfl
  have hpr : (sgf2list (moves2sgf moves {} today)).probs = moves.map probOf := by
    show ((scanNodes (moves2sgf moves {} today)).foldl sgfStep ⟨[], [], [], []⟩).probs = _
    rw [hscan, hfold]
    rfl
  have hsc : (sgf2list (moves2sgf moves {} today)).scores = moves.map scoreOf := by
    show ((scanNodes (moves2sgf moves {} today)).foldl sgfStep ⟨[], [], [], []⟩).scores = _
    rw [hscan, hfold]
    rfl
  have hsgfK : moves2sgf moves {} today =
      "(;FF[4]SZ[19]\nSO[katagui.baduk.club]\nPB[Black]\nPW[White]\nRE[]\n".data ++
        ('K' :: 'M' :: '[' :: ("7.5".data ++ (']' :: ("\nDT[".data ++
          (today ++ ("]\n".data ++ ((tokenList moves 'B').flatten ++ [')']))))))) := by
    rw [hsgf1, sgfHeader_shape]
    rw [show ("(;FF[4]SZ[19]\nSO[katagui.baduk.club]\nPB[Black]\nPW[White]\nRE[]\nKM[7.5]\nDT[".data :
        List Char) =
      "(;FF[4]SZ[19]\nSO[katagui.baduk.club]\nPB[Black]\nPW[White]\nRE[]\n".data ++
        ('K' :: 'M' :: '[' :: ("7.5".data ++ (']' :: "\nDT[".data)))
      from by decide]
    simp [List.append_assoc]
  have hkm : getSgfTag (moves2sgf moves {} today) "KM".data = "7.5".data := by
    unfold getSgfTag
    rw [hsgfK]
    rw [show ("KM".data ++ "[".data : List Char) = 'K' :: "M[".data from rfl]
    rw [findCapture_skip (by decide)]
    rw [findCapture_here (by simp [List.isPrefixOf])]
    rw [show ('K' :: "M[".data).length = 3 from rfl]
    simp only [List.drop_succ_cons, List.drop_zero]
    rw [takeToRBracket_append (by decide)]
    rfl
  have hjpf : jsParseFloat "7.5".data = some ((15 : ℚ) / 2) := by
    have h1 : jsParseFloat "7.5".data =
        some ((digitsToNat ['7'] : ℚ) + (digitsToNat ['5'] : ℚ) / 10 ^ 1) := rfl
    rw [h1, show digitsToNat ['7'] = 7 from rfl, show digitsToNat ['5'] = 5 from rfl]
    norm_num
  have hkomi : (sgf2list (moves2sgf moves {} today)).komi = 7.5 := by
    have hk : (sgf2list (moves2sgf moves {} today)).komi =
        (match jsParseFloat (getSgfTag (moves2sgf moves {} today) "KM".data) with
          | some q => if q = 0 then (7.5 : ℚ) else q
          | none => 7.5) := rfl
    rw [hk, hkm, hjpf]
    norm_num
  refine ⟨hmv, hkomi, ?_⟩
  intro i m p s hi hp hs
  constructor
  · rw [hpr, List.getElem?_map, hi]
    simp [probOf, hp, hs]
  · rw [hsc, List.getElem?_map, hi]
    simp [scoreOf, hp, hs]

theorem moves2sgf_sgf2list_roundtrip_witness :
    (sgf2list (moves2sgf
        [⟨"Q16".data, some (1/2), some 3, none⟩, ⟨"pass".data, none, none, none⟩]
        {} "2024-05-01".data)).moves = ["Q16".data, "pass".data] ∧
    (sgf2list (moves2sgf
        [⟨"Q16".data, some (1/2), some 3, none⟩, ⟨"pass".data, none, none, none⟩]
        {} "2024-05-01".data)).komi = 7.5 ∧
    (sgf2list (moves2sgf
        [⟨"Q16".data, some (1/2), some 3, none⟩, ⟨"pass".data, none, none, none⟩]
        {} "2024-05-01".data)).probs[0]? = some "50.0".data ∧
    (sgf2list (moves2sgf
        [⟨"Q16".data, some (1/2), some 3, none⟩, ⟨"pass".data, none, none, none⟩]
        {} "2024-05-01".data)).scores[0]? = some "3.0".data := by
  have h := moves2sgf_sgf2list_roundtrip
      [⟨"Q16".data, some (1/2), some 3, none⟩, ⟨"pass".data, none, none, none⟩]
      "2024-05-01".data
      (by
        intro m hm
        rcases List.mem_cons.mp hm with rfl | hm1
        · exact ⟨Or.inr ⟨15, by decide, 16, by decide, by decide, by decide⟩, rfl⟩
        rcases List.mem_cons.mp hm1 with rfl | hm2
        · exact ⟨Or.inl rfl, rfl⟩
        · simp at hm2)
      (by decide)
  have h3 := h.2.2 0 ⟨"Q16".data, some (1/2), some 3, none⟩ (1/2) 3 rfl rfl rfl
  refine ⟨?_, h.2.1, ?_, ?_⟩
  · rw [h.1]
    decide
  · rw [h3.1]
    have hfl : ⌊((1 : ℚ)/2 * 100) * 10 + 1/2⌋ = (500 : ℤ) := by norm_num
    rw [toFixed1]
    dsimp only
    rw [hfl]
    decide
  · rw [h3.2]
    have hfl : ⌊(3 : ℚ) * 10 + 1/2⌋ = (30 : ℤ) := by norm_num
    rw [toFixed1]
    dsimp only
    rw [hfl]
    decide

end DeepGo
